import Mathlib

/-!
Shallow embedding of the trie implementation in `src/ExampleCode.ts`.

Words are modelled as `List Char` (TypeScript `for (const ch of str)`
iterates the characters of the string).  The TypeScript `Map` of children
is modelled as an association list `List (Char × TrieNode)` kept in
insertion order: `Map.get` finds the first matching key, `Map.set` updates
the entry in place when the key is present and appends it at the end
otherwise, `Map.delete` removes the entry, and iteration follows the list
order.  `String.prototype.toLowerCase` is modelled by mapping
`Char.toLower` over the characters.  Mutation is modelled functionally:
every operation returns the new tree, and `delete` returns the new tree
together with its boolean result.
-/

/-- A trie node: an ordered children map (character to child node) and the
end-of-word flag, mirroring the `TrieNode` interface of the source. -/
inductive TrieNode : Type where
  | mk (children : List (Char × TrieNode)) (isEndOfWord : Bool)

/-- The `children` field of a node. -/
def TrieNode.children : TrieNode → List (Char × TrieNode)
  | .mk cs _ => cs

/-- The `isEndOfWord` field of a node. -/
def TrieNode.isEndOfWord : TrieNode → Bool
  | .mk _ e => e

/-- Model of `createNode`: a fresh node with an empty children map and
`isEndOfWord = false`. -/
def createNode : TrieNode := .mk [] false

/-- Model of `Map.prototype.get` on the ordered children map. -/
def mapGet (c : Char) : List (Char × TrieNode) → Option TrieNode
  | [] => none
  | (c', n) :: rest => if c' = c then some n else mapGet c rest

/-- Model of `Map.prototype.set`: update the entry in place when the key is
present, append it otherwise. -/
def mapSet (c : Char) (v : TrieNode) : List (Char × TrieNode) → List (Char × TrieNode)
  | [] => [(c, v)]
  | (c', n) :: rest => if c' = c then (c, v) :: rest else (c', n) :: mapSet c v rest

/-- Model of `Map.prototype.delete`: remove the entry with the given key. -/
def mapDelete (c : Char) : List (Char × TrieNode) → List (Char × TrieNode)
  | [] => []
  | (c', n) :: rest => if c' = c then rest else (c', n) :: mapDelete c rest

/-- Model of `str.toLowerCase()`. -/
def toLowerCase (s : List Char) : List Char := s.map Char.toLower

/-- The character-consuming loop of `insert`, acting on the already
normalized word: find or create the child for each character and mark the
final node as end of word. -/
def insertAux : List Char → TrieNode → TrieNode
  | [], .mk cs _ => .mk cs true
  | c :: rest, .mk cs e =>
    match mapGet c cs with
    | some n => .mk (mapSet c (insertAux rest n) cs) e
    | none => .mk (mapSet c (insertAux rest createNode) cs) e

/-- The edge-following loop of `traverse`, acting on the already normalized
string: return the node reached, or `none` as soon as an edge is missing. -/
def traverseAux : List Char → TrieNode → Option TrieNode
  | [], n => some n
  | c :: rest, n =>
    match mapGet c n.children with
    | none => none
    | some nx => traverseAux rest nx

/-- The UTF-16 code units of one character, as produced by JavaScript
string indexing: one unit for a basic-multilingual-plane character, a
surrogate pair for a supplementary-plane character. -/
def charUnits (c : Char) : List Nat :=
  if c.toNat < 65536 then [c.toNat]
  else [55296 + (c.toNat - 65536) / 1024, 56320 + (c.toNat - 65536) % 1024]

/-- The UTF-16 code units of a word: `delete` walks the normalized word by
`normalizedWord[depth]` and `normalizedWord.length`, which index code
units, unlike the `for...of` loops of the other operations. -/
def utf16Units : List Char → List Nat
  | [] => []
  | c :: rest => charUnits c ++ utf16Units rest

/-- `Map.prototype.get` called with a one-code-unit string: it matches a
stored one-code-point key exactly when that code point is the unit. -/
def mapGetU (u : Nat) : List (Char × TrieNode) → Option TrieNode
  | [] => none
  | (c', n) :: rest => if c'.toNat = u then some n else mapGetU u rest

/-- In-place mutation of the child found under a one-code-unit string: the
value of the first matching entry changes, its key stays; nothing is
created when no entry matches. -/
def mapSetAt (u : Nat) (v : TrieNode) : List (Char × TrieNode) → List (Char × TrieNode)
  | [] => []
  | (c', n) :: rest =>
    if c'.toNat = u then (c', v) :: rest else (c', n) :: mapSetAt u v rest

/-- `Map.prototype.delete` called with a one-code-unit string. -/
def mapDeleteU (u : Nat) : List (Char × TrieNode) → List (Char × TrieNode)
  | [] => []
  | (c', n) :: rest => if c'.toNat = u then rest else (c', n) :: mapDeleteU u rest

/-- The recursive `canDelete` closure of `delete`.  It consumes the
normalized word as UTF-16 code units (`normalizedWord[depth]`,
`depth === normalizedWord.length`), and returns the (possibly mutated)
node together with the boolean it reports to its caller. -/
def canDelete : List Nat → TrieNode → TrieNode × Bool
  | [], .mk cs e =>
    if !e then (.mk cs e, false)
    else (.mk cs false, cs.length = 0)
  | u :: rest, .mk cs e =>
    match mapGetU u cs with
    | none => (.mk cs e, false)
    | some nx =>
      let r := canDelete rest nx
      if r.2 then
        let cs' := mapDeleteU u cs
        (.mk cs' e, cs'.length = 0 && !e)
      else (.mk (mapSetAt u r.1 cs) e, false)

/-- The recursive `dfs` closure of `autocomplete` on a children list: visit
each child in map order, extending the accumulated word. -/
def dfsList : List (Char × TrieNode) → List Char → List (List Char)
  | [], _ => []
  | (c, .mk cs e) :: rest, cur =>
    ((if e then [cur ++ [c]] else []) ++ dfsList cs (cur ++ [c])) ++ dfsList rest cur

/-- The recursive `dfs` closure of `autocomplete`: record the accumulated
word at every end-of-word node, then recurse into the children in order. -/
def dfs : TrieNode → List Char → List (List Char)
  | .mk cs e, cur => (if e then [cur] else []) ++ dfsList cs cur

/-- Number of nodes in a children list (auxiliary measure). -/
def sizeList : List (Char × TrieNode) → Nat
  | [] => 0
  | (_, .mk cs _) :: rest => 1 + sizeList cs + sizeList rest

/-- Number of nodes of a tree (auxiliary measure for the BFS loop). -/
def TrieNode.size : TrieNode → Nat
  | .mk cs _ => 1 + sizeList cs

theorem sizeList_cons (c : Char) (n : TrieNode) (rest : List (Char × TrieNode)) :
    sizeList ((c, n) :: rest) = n.size + sizeList rest := by
  cases n with
  | mk cs e => simp [sizeList, TrieNode.size]

theorem sizeList_eq_sum (cs : List (Char × TrieNode)) :
    sizeList cs = ((cs.map (fun x => x.2)).map TrieNode.size).sum := by
  induction cs with
  | nil => simp [sizeList]
  | cons hd tl ih =>
    obtain ⟨c, n⟩ := hd
    rw [sizeList_cons]
    simp [ih]

theorem countWords_measure (cs : List (Char × TrieNode)) (e : Bool)
    (rest : List TrieNode) :
    ((rest ++ cs.map (fun x => x.2)).map TrieNode.size).sum <
      ((TrieNode.mk cs e :: rest).map TrieNode.size).sum := by
  simp only [List.map_append, List.sum_append, List.map_cons, List.sum_cons,
    ← sizeList_eq_sum, TrieNode.size]
  omega

/-- The BFS loop of `countWords`: pop the front of the queue, count its
flag, push its children at the back. -/
def countWordsAux : List TrieNode → Nat
  | [] => 0
  | n :: rest =>
    (if n.isEndOfWord then 1 else 0) +
      countWordsAux (rest ++ n.children.map (fun x => x.2))
termination_by q => (q.map TrieNode.size).sum
decreasing_by
  cases n with
  | mk cs e => exact countWords_measure cs e rest

/-- The trie object: it owns the root node. -/
structure Trie where
  root : TrieNode

/-- Model of `new Trie()`. -/
def Trie.new : Trie := ⟨createNode⟩

/-- Model of `Trie.insert`: normalize the word, then run the insertion
loop from the root. -/
def Trie.insert (t : Trie) (word : List Char) : Trie :=
  ⟨insertAux (toLowerCase word) t.root⟩

/-- Model of `Trie.traverse`: normalize, then follow edges from the root. -/
def Trie.traverse (t : Trie) (str : List Char) : Option TrieNode :=
  traverseAux (toLowerCase str) t.root

/-- Model of `Trie.search`: the traversal must reach a node and that node
must be an end of word. -/
def Trie.search (t : Trie) (word : List Char) : Bool :=
  match t.traverse word with
  | some n => n.isEndOfWord
  | none => false

/-- Model of `Trie.startsWith`: the traversal must reach a node. -/
def Trie.startsWith (t : Trie) (p : List Char) : Bool :=
  (t.traverse p).isSome

/-- Model of `Trie.delete`: run `canDelete` from the root over the code
units of the normalized word; the root node is kept as the new root
whatever the recursion reports, and the boolean reported by the top-level
call is the return value. -/
def Trie.delete (t : Trie) (word : List Char) : Trie × Bool :=
  let r := canDelete (utf16Units (toLowerCase word)) t.root
  (⟨r.1⟩, r.2)

/-- Model of `Trie.autocomplete`: traverse to the prefix node (empty result
when the traversal fails), then DFS from there seeded with the normalized
prefix. -/
def Trie.autocomplete (t : Trie) (p : List Char) : List (List Char) :=
  match t.traverse p with
  | none => []
  | some start => dfs start (toLowerCase p)

/-- Model of `Trie.countWords`: BFS from the root counting end-of-word
nodes. -/
def Trie.countWords (t : Trie) : Nat :=
  countWordsAux [t.root]

/-! ### Basic lemmas about the children-map model -/

theorem mapGet_mapSet_self (c : Char) (v : TrieNode) (cs : List (Char × TrieNode)) :
    mapGet c (mapSet c v cs) = some v := by
  induction cs with
  | nil => simp [mapGet, mapSet]
  | cons hd tl ih =>
    obtain ⟨c', n⟩ := hd
    by_cases h : c' = c <;> simp [mapGet, mapSet, h, ih]

theorem mapGet_mapSet_ne (c c' : Char) (hne : c' ≠ c) (v : TrieNode)
    (cs : List (Char × TrieNode)) :
    mapGet c' (mapSet c v cs) = mapGet c' cs := by
  have hcc : ¬(c = c') := fun h => hne h.symm
  induction cs with
  | nil => simp [mapGet, mapSet, hcc]
  | cons hd tl ih =>
    obtain ⟨c'', n⟩ := hd
    by_cases h : c'' = c
    · subst h
      simp [mapGet, mapSet, hne, hcc]
    · by_cases h' : c'' = c' <;> simp [mapGet, mapSet, h, h', hne, ih]

theorem mapGet_mapDelete_ne (c c' : Char) (hne : c' ≠ c)
    (cs : List (Char × TrieNode)) :
    mapGet c' (mapDelete c cs) = mapGet c' cs := by
  induction cs with
  | nil => simp [mapDelete]
  | cons hd tl ih =>
    obtain ⟨c'', n⟩ := hd
    by_cases h : c'' = c
    · subst h
      simp [mapGet, mapDelete, Ne.symm hne]
    · by_cases h' : c'' = c' <;> simp [mapGet, mapDelete, h, h', hne, ih]

theorem mapGet_eq_some_mem {c : Char} {n : TrieNode} {cs : List (Char × TrieNode)}
    (h : mapGet c cs = some n) : (c, n) ∈ cs := by
  induction cs with
  | nil => simp [mapGet] at h
  | cons hd tl ih =>
    obtain ⟨c', n'⟩ := hd
    by_cases hc : c' = c
    · subst hc
      simp [mapGet] at h
      simp [h]
    · simp [mapGet, hc] at h
      exact List.mem_cons_of_mem _ (ih h)

theorem mem_mapDelete {x : Char × TrieNode} {c : Char} {cs : List (Char × TrieNode)}
    (h : x ∈ mapDelete c cs) : x ∈ cs := by
  induction cs with
  | nil => simp [mapDelete] at h
  | cons hd tl ih =>
    obtain ⟨c', n'⟩ := hd
    by_cases hc : c' = c
    · subst hc
      simp [mapDelete] at h
      simp [h]
    · simp [mapDelete, hc] at h
      rcases h with h | h
      · simp [h]
      · exact List.mem_cons_of_mem _ (ih h)

theorem mapSet_ne_nil (c : Char) (v : TrieNode) (cs : List (Char × TrieNode)) :
    mapSet c v cs ≠ [] := by
  cases cs with
  | nil => simp [mapSet]
  | cons hd tl =>
    obtain ⟨c', n⟩ := hd
    by_cases h : c' = c <;> simp [mapSet, h]

theorem length_mapSet_of_mem (c : Char) (v n : TrieNode) (cs : List (Char × TrieNode))
    (h : mapGet c cs = some n) : (mapSet c v cs).length = cs.length := by
  induction cs with
  | nil => simp [mapGet] at h
  | cons hd tl ih =>
    obtain ⟨c', n'⟩ := hd
    by_cases hc : c' = c
    · subst hc
      simp [mapSet]
    · simp [mapGet, hc] at h
      simp [mapSet, hc, ih h]

theorem mapSet_mapSet_self (c : Char) (v v' : TrieNode) (cs : List (Char × TrieNode)) :
    mapSet c v' (mapSet c v cs) = mapSet c v' cs := by
  induction cs with
  | nil => simp [mapSet]
  | cons hd tl ih =>
    obtain ⟨c', n⟩ := hd
    by_cases h : c' = c <;> simp [mapSet, h, ih]

/-! ### Lowercase normalization -/

theorem char_toNat_ofNat_valid (m : Nat) (h : m < 55296) : (Char.ofNat m).toNat = m := by
  have hv : Nat.isValidChar m := Or.inl h
  simp [Char.ofNat, hv, Char.ofNatAux, Char.toNat, UInt32.toNat]

/-- `Char.toLower` is idempotent: lowering a character twice is the same as
lowering it once. -/
theorem char_toLower_toLower (c : Char) : c.toLower.toLower = c.toLower := by
  unfold Char.toLower
  by_cases h : c.toNat ≥ 65 ∧ c.toNat ≤ 90
  · have h1 : (Char.ofNat (c.toNat + 32)).toNat = c.toNat + 32 :=
      char_toNat_ofNat_valid _ (by omega)
    simp only [if_pos h, h1]
    have h2 : ¬(c.toNat + 32 ≥ 65 ∧ c.toNat + 32 ≤ 90) := by omega
    simp only [if_neg h2]
  · simp only [if_neg h]

/-- `toLowerCase` is idempotent. -/
theorem toLowerCase_toLowerCase (s : List Char) :
    toLowerCase (toLowerCase s) = toLowerCase s := by
  simp only [toLowerCase, List.map_map]
  exact List.map_congr_left (fun c _ => char_toLower_toLower c)

theorem toLowerCase_append (a b : List Char) :
    toLowerCase (a ++ b) = toLowerCase a ++ toLowerCase b := by
  simp [toLowerCase]

theorem toLowerCase_self_of_all (s : List Char) (h : ∀ c ∈ s, c.toLower = c) :
    toLowerCase s = s :=
  List.map_congr_left h |>.trans (List.map_id s)

/-! ### Traversal and search -/

/-- Search along an already-normalized path from a given node: the value of
`search` once normalization is factored out. -/
def searchFrom (s : List Char) (n : TrieNode) : Bool :=
  match traverseAux s n with
  | some m => m.isEndOfWord
  | none => false

theorem search_eq_searchFrom (t : Trie) (w : List Char) :
    t.search w = searchFrom (toLowerCase w) t.root := by
  simp [Trie.search, Trie.traverse, searchFrom]

theorem searchFrom_nil (n : TrieNode) : searchFrom [] n = n.isEndOfWord := rfl

theorem searchFrom_cons (c : Char) (rest : List Char) (n : TrieNode) :
    searchFrom (c :: rest) n =
      match mapGet c n.children with
      | some nx => searchFrom rest nx
      | none => false := by
  simp only [searchFrom, traverseAux]
  cases mapGet c n.children <;> rfl

theorem traverseAux_append (a b : List Char) (n : TrieNode) :
    traverseAux (a ++ b) n = (traverseAux a n).bind (traverseAux b) := by
  induction a generalizing n with
  | nil => simp [traverseAux]
  | cons c rest ih =>
    simp only [List.cons_append, traverseAux]
    cases mapGet c n.children with
    | none => simp
    | some nx => simp [ih]

theorem searchFrom_createNode (s : List Char) : searchFrom s createNode = false := by
  cases s with
  | nil => rfl
  | cons c rest => simp [searchFrom, traverseAux, createNode, TrieNode.children, mapGet]

/-! ### Insert lemmas -/

theorem searchFrom_insertAux_self (s : List Char) (n : TrieNode) :
    searchFrom s (insertAux s n) = true := by
  induction s generalizing n with
  | nil =>
    cases n with
    | mk cs e => simp [insertAux, searchFrom, traverseAux, TrieNode.isEndOfWord]
  | cons c rest ih =>
    cases n with
    | mk cs e =>
      cases hg : mapGet c cs with
      | some child =>
        rw [insertAux, hg]
        simp only [searchFrom_cons, TrieNode.children, mapGet_mapSet_self]
        exact ih child
      | none =>
        rw [insertAux, hg]
        simp only [searchFrom_cons, TrieNode.children, mapGet_mapSet_self]
        exact ih createNode

theorem searchFrom_insertAux_other (s s' : List Char) (hne : s' ≠ s) (n : TrieNode) :
    searchFrom s' (insertAux s n) = searchFrom s' n := by
  induction s generalizing s' n with
  | nil =>
    cases n with
    | mk cs e =>
      cases s' with
      | nil => exact absurd rfl hne
      | cons c' r' =>
        simp [insertAux, searchFrom_cons, TrieNode.children]
  | cons c rest ih =>
    cases n with
    | mk cs e =>
      cases s' with
      | nil =>
        cases hg : mapGet c cs <;>
          simp [insertAux, hg, searchFrom_nil, TrieNode.isEndOfWord]
      | cons c' r' =>
        by_cases hc : c' = c
        · subst hc
          have hr : r' ≠ rest := by
            intro h
            exact hne (by rw [h])
          cases hg : mapGet c' cs with
          | some child =>
            rw [insertAux, hg]
            simp only [searchFrom_cons, TrieNode.children, mapGet_mapSet_self, hg]
            exact ih r' hr child
          | none =>
            rw [insertAux, hg]
            simp only [searchFrom_cons, TrieNode.children, mapGet_mapSet_self, hg]
            rw [ih r' hr createNode, searchFrom_createNode]
        · cases hg : mapGet c cs with
          | some child =>
            rw [insertAux, hg]
            simp only [searchFrom_cons, TrieNode.children,
              mapGet_mapSet_ne c c' hc]
          | none =>
            rw [insertAux, hg]
            simp only [searchFrom_cons, TrieNode.children,
              mapGet_mapSet_ne c c' hc]

/-! ### Characters and code units -/

theorem char_toNat_inj : Function.Injective Char.toNat := by
  intro a b h
  apply Char.eq_of_val_eq
  exact UInt32.ext h

theorem char_valid_toNat (c : Char) :
    c.toNat < 55296 ∨ (57343 < c.toNat ∧ c.toNat < 1114112) := by
  rcases c.valid with h | h
  · left; exact h
  · right; exact h

theorem char_not_surrogate (c : Char) : c.toNat < 55296 ∨ 57343 < c.toNat := by
  rcases char_valid_toNat c with h | h
  · exact Or.inl h
  · exact Or.inr h.1

theorem mapGetU_toNat (c : Char) (cs : List (Char × TrieNode)) :
    mapGetU c.toNat cs = mapGet c cs := by
  induction cs with
  | nil => rfl
  | cons hd tl ih =>
    obtain ⟨c', n⟩ := hd
    by_cases h : c' = c
    · subst h; simp [mapGetU, mapGet]
    · have hne : ¬(c'.toNat = c.toNat) := fun hh => h (char_toNat_inj hh)
      simp [mapGetU, mapGet, h, hne, ih]

theorem mapDeleteU_toNat (c : Char) (cs : List (Char × TrieNode)) :
    mapDeleteU c.toNat cs = mapDelete c cs := by
  induction cs with
  | nil => rfl
  | cons hd tl ih =>
    obtain ⟨c', n⟩ := hd
    by_cases h : c' = c
    · subst h; simp [mapDeleteU, mapDelete]
    · have hne : ¬(c'.toNat = c.toNat) := fun hh => h (char_toNat_inj hh)
      simp [mapDeleteU, mapDelete, h, hne, ih]

theorem mapSetAt_toNat {c : Char} {nx : TrieNode} {cs : List (Char × TrieNode)}
    (hg : mapGet c cs = some nx) (v : TrieNode) :
    mapSetAt c.toNat v cs = mapSet c v cs := by
  induction cs with
  | nil => simp [mapGet] at hg
  | cons hd tl ih =>
    obtain ⟨c', n⟩ := hd
    by_cases h : c' = c
    · subst h; simp [mapSetAt, mapSet]
    · have hne : ¬(c'.toNat = c.toNat) := fun hh => h (char_toNat_inj hh)
      simp only [mapGet, if_neg h] at hg
      simp [mapSetAt, mapSet, h, hne, ih hg]

theorem mapGetU_eq_some_exists {u : Nat} {nx : TrieNode} {cs : List (Char × TrieNode)}
    (hg : mapGetU u cs = some nx) : ∃ c, c.toNat = u ∧ mapGet c cs = some nx := by
  induction cs with
  | nil => simp [mapGetU] at hg
  | cons hd tl ih =>
    obtain ⟨c', n⟩ := hd
    by_cases h : c'.toNat = u
    · have hn : n = nx := by simpa [mapGetU, h] using hg
      subst hn
      exact ⟨c', h, by simp [mapGet]⟩
    · simp only [mapGetU, if_neg h] at hg
      obtain ⟨c, hc, hgc⟩ := ih hg
      have hcc : ¬(c' = c) := fun hh => h (by rw [hh, hc])
      exact ⟨c, hc, by simp [mapGet, hcc, hgc]⟩

theorem mapGetU_surrogate {u : Nat} (h1 : 55296 ≤ u) (h2 : u ≤ 57343)
    (cs : List (Char × TrieNode)) : mapGetU u cs = none := by
  induction cs with
  | nil => rfl
  | cons hd tl ih =>
    obtain ⟨c', n⟩ := hd
    have hne : ¬(c'.toNat = u) := by
      rcases char_not_surrogate c' with h | h <;> omega
    simp [mapGetU, hne, ih]

theorem mapSetAt_id {u : Nat} {nx : TrieNode} {cs : List (Char × TrieNode)}
    (hg : mapGetU u cs = some nx) : mapSetAt u nx cs = cs := by
  induction cs with
  | nil => rfl
  | cons hd tl ih =>
    obtain ⟨c', n⟩ := hd
    by_cases h : c'.toNat = u
    · have hn : n = nx := by simpa [mapGetU, h] using hg
      subst hn
      simp [mapSetAt, h]
    · simp only [mapGetU, if_neg h] at hg
      simp [mapSetAt, h, ih hg]

theorem mapGetU_mapSet_ne {u : Nat} {c : Char} (hne : u ≠ c.toNat) (v : TrieNode)
    (cs : List (Char × TrieNode)) : mapGetU u (mapSet c v cs) = mapGetU u cs := by
  have hne' : ¬(c.toNat = u) := fun h => hne h.symm
  induction cs with
  | nil => simp [mapSet, mapGetU, hne']
  | cons hd tl ih =>
    obtain ⟨c', n⟩ := hd
    by_cases h : c' = c
    · subst h
      simp [mapSet, mapGetU, hne']
    · by_cases hcu : c'.toNat = u <;> simp [mapSet, mapGetU, h, hcu, ih]

theorem mapGetU_mapDelete_ne {u : Nat} {c : Char} (hne : u ≠ c.toNat)
    (cs : List (Char × TrieNode)) : mapGetU u (mapDelete c cs) = mapGetU u cs := by
  have hne' : ¬(c.toNat = u) := fun h => hne h.symm
  induction cs with
  | nil => rfl
  | cons hd tl ih =>
    obtain ⟨c', n⟩ := hd
    by_cases h : c' = c
    · subst h
      simp [mapDelete, mapGetU, hne']
    · by_cases hcu : c'.toNat = u <;> simp [mapDelete, mapGetU, h, hcu, ih]

/-- All characters of a word fit in one UTF-16 code unit. -/
def allBMP (s : List Char) : Bool := s.all fun c => c.toNat < 65536

theorem allBMP_utf16 {s : List Char} (h : allBMP s = true) :
    utf16Units s = s.map Char.toNat := by
  induction s with
  | nil => rfl
  | cons c rest ih =>
    rw [allBMP, List.all_cons] at h
    simp only [Bool.and_eq_true, decide_eq_true_eq] at h
    show charUnits c ++ utf16Units rest = c.toNat :: rest.map Char.toNat
    rw [charUnits, if_pos h.1, ih h.2]
    rfl

theorem exists_astral_of_not_allBMP {s : List Char} (h : ¬allBMP s = true) :
    ∃ c ∈ s, 65536 ≤ c.toNat := by
  rw [allBMP, List.all_eq_true] at h
  push_neg at h
  obtain ⟨c, hc, hlt⟩ := h
  refine ⟨c, hc, ?_⟩
  have hge : ¬(c.toNat < 65536) := by simpa using hlt
  omega

theorem surrogate_mem_utf16Units {c : Char} {s : List Char} (hc : c ∈ s)
    (h : 65536 ≤ c.toNat) : ∃ u ∈ utf16Units s, 55296 ≤ u ∧ u ≤ 57343 := by
  induction s with
  | nil => simp at hc
  | cons c0 rest ih =>
    rcases List.mem_cons.mp hc with heq | hmem
    · subst heq
      refine ⟨55296 + (c.toNat - 65536) / 1024, ?_, by omega, ?_⟩
      · show _ ∈ charUnits c ++ utf16Units rest
        rw [charUnits, if_neg (by omega)]
        simp
      · have hlt : c.toNat < 1114112 := by
          rcases char_valid_toNat c with h' | h'
          · omega
          · exact h'.2
        have hdiv : (c.toNat - 65536) / 1024 < 1024 :=
          Nat.div_lt_of_lt_mul (by omega)
        omega
    · obtain ⟨u, hu, h1, h2⟩ := ih hmem
      refine ⟨u, ?_, h1, h2⟩
      show u ∈ charUnits c0 ++ utf16Units rest
      exact List.mem_append.mpr (Or.inr hu)

theorem map_toNat_ne_utf16Units {s s' : List Char} (hne : s' ≠ s) :
    s'.map Char.toNat ≠ utf16Units s := by
  by_cases hbmp : allBMP s = true
  · rw [allBMP_utf16 hbmp]
    intro h
    exact hne (List.map_injective_iff.mpr char_toNat_inj h)
  · obtain ⟨c, hc, hge⟩ := exists_astral_of_not_allBMP hbmp
    obtain ⟨u, hu, h1, h2⟩ := surrogate_mem_utf16Units hc hge
    intro h
    rw [← h] at hu
    obtain ⟨c', _, hc'⟩ := List.mem_map.mp hu
    rcases char_not_surrogate c' with hs | hs <;> omega

/-- Search along a code-unit path: what the recursion of `delete`
observes. -/
def searchU : List Nat → TrieNode → Bool
  | [], n => n.isEndOfWord
  | u :: rest, n =>
    match mapGetU u n.children with
    | none => false
    | some nx => searchU rest nx

theorem searchU_nil (n : TrieNode) : searchU [] n = n.isEndOfWord := rfl

theorem searchU_cons (u : Nat) (rest : List Nat) (n : TrieNode) :
    searchU (u :: rest) n =
      match mapGetU u n.children with
      | some nx => searchU rest nx
      | none => false := by
  rw [searchU]
  cases mapGetU u n.children <;> rfl

theorem searchU_map_toNat (s : List Char) (n : TrieNode) :
    searchU (s.map Char.toNat) n = searchFrom s n := by
  induction s generalizing n with
  | nil => rfl
  | cons c rest ih =>
    rw [List.map_cons, searchU_cons, searchFrom_cons, mapGetU_toNat]
    cases mapGet c n.children with
    | none => rfl
    | some nx => exact ih nx

theorem searchU_createNode (us : List Nat) : searchU us createNode = false := by
  cases us with
  | nil => rfl
  | cons u rest => simp [searchU_cons, createNode, TrieNode.children, mapGetU]

/-! ### Unfolding equations for canDelete -/

theorem canDelete_nil_false (cs : List (Char × TrieNode)) :
    canDelete [] (.mk cs false) = (.mk cs false, false) := rfl

theorem canDelete_nil_true (cs : List (Char × TrieNode)) :
    canDelete [] (.mk cs true) = (.mk cs false, decide (cs.length = 0)) := rfl

theorem canDelete_cons_none (u : Nat) (rest : List Nat) (cs : List (Char × TrieNode))
    (e : Bool) (hg : mapGetU u cs = none) :
    canDelete (u :: rest) (.mk cs e) = (.mk cs e, false) := by
  rw [canDelete, hg]

theorem canDelete_cons_some (u : Nat) (rest : List Nat) (cs : List (Char × TrieNode))
    (e : Bool) (nx : TrieNode) (hg : mapGetU u cs = some nx) :
    canDelete (u :: rest) (.mk cs e) =
      if (canDelete rest nx).2 then
        (.mk (mapDeleteU u cs) e, decide ((mapDeleteU u cs).length = 0) && !e)
      else (.mk (mapSetAt u (canDelete rest nx).1 cs) e, false) := by
  rw [canDelete, hg]

/-- When `canDelete` reports "prunable", the node it hands back is an empty
unmarked node. -/
theorem canDelete_true_prunes (us : List Nat) (n : TrieNode)
    (h : (canDelete us n).2 = true) : (canDelete us n).1 = createNode := by
  induction us generalizing n with
  | nil =>
    cases n with
    | mk cs e =>
      cases e with
      | false => rw [canDelete_nil_false] at h ⊢; exact absurd h (by simp)
      | true =>
        rw [canDelete_nil_true] at h ⊢
        simp only [decide_eq_true_eq] at h
        have : cs = [] := List.length_eq_zero.mp h
        simp [this, createNode]
  | cons u rest ih =>
    cases n with
    | mk cs e =>
      cases hg : mapGetU u cs with
      | none =>
        rw [canDelete_cons_none u rest cs e hg] at h
        exact absurd h (by simp)
      | some nx =>
        rw [canDelete_cons_some u rest cs e nx hg] at h ⊢
        by_cases hr : (canDelete rest nx).2
        · simp only [hr, if_true] at h ⊢
          simp only [Bool.and_eq_true, decide_eq_true_eq, Bool.not_eq_true'] at h
          have hnil : mapDeleteU u cs = [] := List.length_eq_zero.mp h.1
          simp [hnil, h.2, createNode]
        · simp only [hr] at h
          simp at h

/-- When some code unit of the word is a surrogate half (as happens for
every supplementary-plane word), no edge can match it and `canDelete`
leaves the tree untouched and reports false. -/
theorem canDelete_noop (us : List Nat) (n : TrieNode)
    (h : ∃ u ∈ us, 55296 ≤ u ∧ u ≤ 57343) : canDelete us n = (n, false) := by
  induction us generalizing n with
  | nil =>
    obtain ⟨u, hu, _⟩ := h
    simp at hu
  | cons u rest ih =>
    cases n with
    | mk cs e =>
      obtain ⟨u', hu', hs1, hs2⟩ := h
      rcases List.mem_cons.mp hu' with heq | hmem
      · subst heq
        rw [canDelete_cons_none u' rest cs e (mapGetU_surrogate hs1 hs2 cs)]
      · cases hg : mapGetU u cs with
        | none => rw [canDelete_cons_none u rest cs e hg]
        | some nx =>
          rw [canDelete_cons_some u rest cs e nx hg]
          rw [ih nx ⟨u', hmem, hs1, hs2⟩]
          simp only [Bool.false_eq_true, if_false]
          rw [mapSetAt_id hg]

/-! ### Well-formedness: the keys of every children map are distinct -/

/-- Distinct keys at every level of a children list, as produced by the
`Map` of the source (a `Map` never holds two entries with the same key). -/
def wfChildren : List (Char × TrieNode) → Bool
  | [] => true
  | (c, .mk cs _) :: rest =>
    rest.all (fun x => x.1 != c) && wfChildren cs && wfChildren rest

theorem wfChildren_nil : wfChildren [] = true := by
  simp [wfChildren]

theorem wfChildren_cons (c : Char) (n : TrieNode) (rest : List (Char × TrieNode)) :
    wfChildren ((c, n) :: rest) =
      (rest.all (fun x => x.1 != c) && wfChildren n.children && wfChildren rest) := by
  cases n with
  | mk cs e => simp [wfChildren, TrieNode.children]

theorem wf_mem {cs : List (Char × TrieNode)} {x : Char × TrieNode}
    (hwf : wfChildren cs = true) (hx : x ∈ cs) : wfChildren x.2.children = true := by
  induction cs with
  | nil => simp at hx
  | cons hd tl ih =>
    obtain ⟨c, n⟩ := hd
    rw [wfChildren_cons] at hwf
    simp only [Bool.and_eq_true] at hwf
    rcases List.mem_cons.mp hx with h | h
    · subst h; exact hwf.1.2
    · exact ih hwf.2 h

theorem wf_mapGet {cs : List (Char × TrieNode)} {c : Char} {n : TrieNode}
    (hwf : wfChildren cs = true) (hg : mapGet c cs = some n) :
    wfChildren n.children = true :=
  wf_mem hwf (mapGet_eq_some_mem hg)

theorem mapGet_eq_none_of_all {c : Char} {cs : List (Char × TrieNode)}
    (h : cs.all (fun x => x.1 != c) = true) : mapGet c cs = none := by
  induction cs with
  | nil => rfl
  | cons hd tl ih =>
    obtain ⟨c', n⟩ := hd
    simp only [List.all_cons, Bool.and_eq_true, bne_iff_ne] at h
    simp [mapGet, h.1, ih h.2]

theorem mapGet_mapDelete_self {c : Char} {cs : List (Char × TrieNode)}
    (hwf : wfChildren cs = true) : mapGet c (mapDelete c cs) = none := by
  induction cs with
  | nil => rfl
  | cons hd tl ih =>
    obtain ⟨c', n⟩ := hd
    rw [wfChildren_cons] at hwf
    simp only [Bool.and_eq_true] at hwf
    by_cases hc : c' = c
    · subst hc
      simp only [mapDelete, if_pos rfl]
      exact mapGet_eq_none_of_all hwf.1.1
    · simp only [mapDelete, if_neg hc]
      simp [mapGet, hc, ih hwf.2]

theorem all_mapSet {p : Char × TrieNode → Bool} {c : Char} {v : TrieNode}
    {cs : List (Char × TrieNode)} (hcs : cs.all p = true) (hv : p (c, v) = true) :
    (mapSet c v cs).all p = true := by
  induction cs with
  | nil => simp [mapSet, hv]
  | cons hd tl ih =>
    obtain ⟨c', n⟩ := hd
    simp only [List.all_cons, Bool.and_eq_true] at hcs
    by_cases hc : c' = c
    · simp [mapSet, hc, hv, hcs.2]
    · simp [mapSet, hc, hcs.1, ih hcs.2]

theorem all_mapDelete {p : Char × TrieNode → Bool} {c : Char}
    {cs : List (Char × TrieNode)} (hcs : cs.all p = true) :
    (mapDelete c cs).all p = true := by
  rw [List.all_eq_true] at hcs ⊢
  exact fun x hx => hcs x (mem_mapDelete hx)

theorem wfChildren_mapSet {c : Char} {v : TrieNode} {cs : List (Char × TrieNode)}
    (hwf : wfChildren cs = true) (hv : wfChildren v.children = true) :
    wfChildren (mapSet c v cs) = true := by
  induction cs with
  | nil =>
    show wfChildren [(c, v)] = true
    rw [wfChildren_cons]
    simp [hv, wfChildren_nil]
  | cons hd tl ih =>
    obtain ⟨c', n⟩ := hd
    rw [wfChildren_cons] at hwf
    simp only [Bool.and_eq_true] at hwf
    by_cases hc : c' = c
    · subst hc
      have hset : mapSet c' v ((c', n) :: tl) = (c', v) :: tl := by
        simp [mapSet]
      rw [hset, wfChildren_cons]
      simp [hwf.1.1, hwf.2, hv]
    · have hset : mapSet c v ((c', n) :: tl) = (c', n) :: mapSet c v tl := by
        simp [mapSet, hc]
      rw [hset, wfChildren_cons]
      have h1 : (mapSet c v tl).all (fun x => x.1 != c') = true :=
        all_mapSet hwf.1.1 (by simp [bne_iff_ne]; exact fun h => hc h.symm)
      simp [h1, hwf.1.2, ih hwf.2]

theorem wfChildren_mapDelete {c : Char} {cs : List (Char × TrieNode)}
    (hwf : wfChildren cs = true) : wfChildren (mapDelete c cs) = true := by
  induction cs with
  | nil => exact hwf
  | cons hd tl ih =>
    obtain ⟨c', n⟩ := hd
    rw [wfChildren_cons] at hwf
    simp only [Bool.and_eq_true] at hwf
    by_cases hc : c' = c
    · have hdel : mapDelete c ((c', n) :: tl) = tl := by
        simp [mapDelete, hc]
      rw [hdel]
      exact hwf.2
    · have hdel : mapDelete c ((c', n) :: tl) = (c', n) :: mapDelete c tl := by
        simp [mapDelete, hc]
      rw [hdel, wfChildren_cons]
      simp [all_mapDelete hwf.1.1, hwf.1.2, ih hwf.2]

theorem wfChildren_insertAux (s : List Char) (n : TrieNode)
    (hwf : wfChildren n.children = true) :
    wfChildren (insertAux s n).children = true := by
  induction s generalizing n with
  | nil =>
    cases n with
    | mk cs e => exact hwf
  | cons c rest ih =>
    cases n with
    | mk cs e =>
      cases hg : mapGet c cs with
      | some child =>
        rw [insertAux, hg]
        exact wfChildren_mapSet hwf (ih child (wf_mapGet hwf hg))
      | none =>
        rw [insertAux, hg]
        exact wfChildren_mapSet hwf (ih createNode wfChildren_nil)

theorem wfChildren_canDelete (us : List Nat) (n : TrieNode)
    (hwf : wfChildren n.children = true) :
    wfChildren (canDelete us n).1.children = true := by
  induction us generalizing n with
  | nil =>
    cases n with
    | mk cs e =>
      cases e with
      | false => rw [canDelete_nil_false]; exact hwf
      | true => rw [canDelete_nil_true]; exact hwf
  | cons u rest ih =>
    cases n with
    | mk cs e =>
      cases hg : mapGetU u cs with
      | none =>
        rw [canDelete_cons_none u rest cs e hg]
        exact hwf
      | some nx =>
        rw [canDelete_cons_some u rest cs e nx hg]
        obtain ⟨c, hcu, hgc⟩ := mapGetU_eq_some_exists hg
        have hdel : mapDeleteU u cs = mapDelete c cs := by
          rw [← hcu, mapDeleteU_toNat]
        have hset : mapSetAt u (canDelete rest nx).1 cs =
            mapSet c (canDelete rest nx).1 cs := by
          rw [← hcu, mapSetAt_toNat hgc]
        by_cases hr : (canDelete rest nx).2
        · simp only [hr, if_true, hdel]
          exact wfChildren_mapDelete hwf
        · simp only [hr, if_false, Bool.false_eq_true, hset]
          exact wfChildren_mapSet hwf (ih nx (wf_mapGet hwf hgc))

/-! ### Effect of canDelete on search -/

/-- After `canDelete` for a code-unit path, that path is no longer
found. -/
theorem searchU_canDelete_self (us : List Nat) (n : TrieNode)
    (hwf : wfChildren n.children = true) :
    searchU us (canDelete us n).1 = false := by
  induction us generalizing n with
  | nil =>
    cases n with
    | mk cs e =>
      cases e with
      | false => rw [canDelete_nil_false]; rfl
      | true => rw [canDelete_nil_true]; rfl
  | cons u rest ih =>
    cases n with
    | mk cs e =>
      cases hg : mapGetU u cs with
      | none =>
        rw [canDelete_cons_none u rest cs e hg]
        simp [searchU_cons, TrieNode.children, hg]
      | some nx =>
        rw [canDelete_cons_some u rest cs e nx hg]
        obtain ⟨c, hcu, hgc⟩ := mapGetU_eq_some_exists hg
        have hwf' : wfChildren cs = true := hwf
        by_cases hr : (canDelete rest nx).2
        · have hnone : mapGetU u (mapDeleteU u cs) = none := by
            rw [← hcu, mapDeleteU_toNat, mapGetU_toNat]
            exact mapGet_mapDelete_self hwf'
          simp only [hr, if_true]
          simp [searchU_cons, TrieNode.children, hnone]
        · have hsome : mapGetU u (mapSetAt u (canDelete rest nx).1 cs) =
              some (canDelete rest nx).1 := by
            rw [← hcu, mapSetAt_toNat hgc, mapGetU_toNat]
            exact mapGet_mapSet_self c (canDelete rest nx).1 cs
          simp only [hr, if_false, Bool.false_eq_true]
          simp only [searchU_cons, TrieNode.children, hsome]
          exact ih nx (wf_mapGet hwf' hgc)

/-- `canDelete` for one code-unit path does not change the search result
of any other code-unit path. -/
theorem searchU_canDelete_other (us us' : List Nat) (n : TrieNode)
    (hwf : wfChildren n.children = true) (hne : us' ≠ us) :
    searchU us' (canDelete us n).1 = searchU us' n := by
  induction us generalizing us' n with
  | nil =>
    cases n with
    | mk cs e =>
      cases us' with
      | nil => exact absurd rfl hne
      | cons u' r' =>
        cases e with
        | false =>
          rw [canDelete_nil_false]
        | true =>
          rw [canDelete_nil_true]
          simp [searchU_cons, TrieNode.children]
  | cons u rest ih =>
    cases n with
    | mk cs e =>
      cases hg : mapGetU u cs with
      | none =>
        rw [canDelete_cons_none u rest cs e hg]
      | some nx =>
        rw [canDelete_cons_some u rest cs e nx hg]
        obtain ⟨c, hcu, hgc⟩ := mapGetU_eq_some_exists hg
        have hwf' : wfChildren cs = true := hwf
        by_cases hr : (canDelete rest nx).2
        · simp only [hr, if_true]
          cases us' with
          | nil => simp [searchU_nil, TrieNode.isEndOfWord]
          | cons u' r' =>
            by_cases hcu' : u' = u
            · subst hcu'
              have hr' : r' ≠ rest := fun h => hne (by rw [h])
              have h1 : searchU r' nx = false := by
                rw [← ih r' nx (wf_mapGet hwf' hgc) hr',
                  canDelete_true_prunes rest nx hr, searchU_createNode]
              have hnone : mapGetU u' (mapDeleteU u' cs) = none := by
                rw [← hcu, mapDeleteU_toNat, mapGetU_toNat]
                exact mapGet_mapDelete_self hwf'
              simp [searchU_cons, TrieNode.children, hnone, hg, h1]
            · have h2 : mapGetU u' (mapDeleteU u cs) = mapGetU u' cs := by
                rw [← hcu, mapDeleteU_toNat]
                exact mapGetU_mapDelete_ne (fun h => hcu' (h.trans hcu)) cs
              simp [searchU_cons, TrieNode.children, h2]
        · simp only [hr, if_false, Bool.false_eq_true]
          cases us' with
          | nil => simp [searchU_nil, TrieNode.isEndOfWord]
          | cons u' r' =>
            by_cases hcu' : u' = u
            · subst hcu'
              have hr' : r' ≠ rest := fun h => hne (by rw [h])
              have hsome : mapGetU u' (mapSetAt u' (canDelete rest nx).1 cs) =
                  some (canDelete rest nx).1 := by
                rw [← hcu, mapSetAt_toNat hgc, mapGetU_toNat]
                exact mapGet_mapSet_self c (canDelete rest nx).1 cs
              simp only [searchU_cons, TrieNode.children, hsome, hg]
              exact ih r' nx (wf_mapGet hwf' hgc) hr'
            · have h2 : mapGetU u' (mapSetAt u (canDelete rest nx).1 cs) =
                  mapGetU u' cs := by
                rw [← hcu, mapSetAt_toNat hgc]
                exact mapGetU_mapSet_ne (fun h => hcu' (h.trans hcu)) _ cs
              simp [searchU_cons, TrieNode.children, h2]

/-! ### The garbage-free invariant -/

/-- A node that may legitimately stay in the live tree: it terminates a
word or has at least one child. -/
def nodeOk (n : TrieNode) : Bool := n.isEndOfWord || !n.children.isEmpty

/-- Every node of a children list, recursively, is not garbage: it has a
child or terminates a word. -/
def childrenOk : List (Char × TrieNode) → Bool
  | [] => true
  | (_, .mk cs e) :: rest => (e || !cs.isEmpty) && childrenOk cs && childrenOk rest

theorem childrenOk_nil : childrenOk [] = true := by
  simp [childrenOk]

theorem childrenOk_cons (c : Char) (n : TrieNode) (rest : List (Char × TrieNode)) :
    childrenOk ((c, n) :: rest) =
      (nodeOk n && childrenOk n.children && childrenOk rest) := by
  cases n with
  | mk cs e => simp [childrenOk, nodeOk, TrieNode.children, TrieNode.isEndOfWord]

theorem childrenOk_mem {cs : List (Char × TrieNode)} {x : Char × TrieNode}
    (hok : childrenOk cs = true) (hx : x ∈ cs) :
    nodeOk x.2 = true ∧ childrenOk x.2.children = true := by
  induction cs with
  | nil => simp at hx
  | cons hd tl ih =>
    obtain ⟨c, n⟩ := hd
    rw [childrenOk_cons] at hok
    simp only [Bool.and_eq_true] at hok
    rcases List.mem_cons.mp hx with h | h
    · subst h; exact ⟨hok.1.1, hok.1.2⟩
    · exact ih hok.2 h

theorem childrenOk_mapSet {c : Char} {v : TrieNode} {cs : List (Char × TrieNode)}
    (hok : childrenOk cs = true) (hv : nodeOk v = true)
    (hvc : childrenOk v.children = true) :
    childrenOk (mapSet c v cs) = true := by
  induction cs with
  | nil =>
    show childrenOk [(c, v)] = true
    rw [childrenOk_cons]
    simp [hv, hvc, childrenOk_nil]
  | cons hd tl ih =>
    obtain ⟨c', n⟩ := hd
    rw [childrenOk_cons] at hok
    simp only [Bool.and_eq_true] at hok
    by_cases hc : c' = c
    · subst hc
      have hset : mapSet c' v ((c', n) :: tl) = (c', v) :: tl := by
        simp [mapSet]
      rw [hset, childrenOk_cons]
      simp [hv, hvc, hok.2]
    · have hset : mapSet c v ((c', n) :: tl) = (c', n) :: mapSet c v tl := by
        simp [mapSet, hc]
      rw [hset, childrenOk_cons]
      simp [hok.1.1, hok.1.2, ih hok.2]

theorem childrenOk_mapDelete {c : Char} {cs : List (Char × TrieNode)}
    (hok : childrenOk cs = true) : childrenOk (mapDelete c cs) = true := by
  induction cs with
  | nil => exact hok
  | cons hd tl ih =>
    obtain ⟨c', n⟩ := hd
    rw [childrenOk_cons] at hok
    simp only [Bool.and_eq_true] at hok
    by_cases hc : c' = c
    · have hdel : mapDelete c ((c', n) :: tl) = tl := by
        simp [mapDelete, hc]
      rw [hdel]
      exact hok.2
    · have hdel : mapDelete c ((c', n) :: tl) = (c', n) :: mapDelete c tl := by
        simp [mapDelete, hc]
      rw [hdel, childrenOk_cons]
      simp [hok.1.1, hok.1.2, ih hok.2]

/-- The node `insert` leaves behind is never garbage: the final node gets
the end-of-word mark and intermediate nodes have a child. -/
theorem nodeOk_insertAux (s : List Char) (n : TrieNode) :
    nodeOk (insertAux s n) = true := by
  cases s with
  | nil =>
    cases n with
    | mk cs e => simp [insertAux, nodeOk, TrieNode.isEndOfWord]
  | cons c rest =>
    cases n with
    | mk cs e =>
      cases hg : mapGet c cs with
      | some child =>
        rw [insertAux, hg]
        simp [nodeOk, TrieNode.children, List.isEmpty_iff, mapSet_ne_nil]
      | none =>
        rw [insertAux, hg]
        simp [nodeOk, TrieNode.children, List.isEmpty_iff, mapSet_ne_nil]

/-- `insert` preserves the garbage-free invariant. -/
theorem childrenOk_insertAux (s : List Char) (n : TrieNode)
    (hok : childrenOk n.children = true) :
    childrenOk (insertAux s n).children = true := by
  induction s generalizing n with
  | nil =>
    cases n with
    | mk cs e => exact hok
  | cons c rest ih =>
    cases n with
    | mk cs e =>
      cases hg : mapGet c cs with
      | some child =>
        rw [insertAux, hg]
        have hmem := childrenOk_mem hok (mapGet_eq_some_mem hg)
        exact childrenOk_mapSet hok (nodeOk_insertAux rest child) (ih child hmem.2)
      | none =>
        rw [insertAux, hg]
        exact childrenOk_mapSet hok (nodeOk_insertAux rest createNode)
          (ih createNode childrenOk_nil)

/-- `canDelete` preserves the garbage-free invariant, and whenever it
reports "not prunable" the node it returns is itself not garbage. -/
theorem childrenOk_canDelete (us : List Nat) (n : TrieNode)
    (hok : childrenOk n.children = true) :
    childrenOk (canDelete us n).1.children = true ∧
      ((canDelete us n).2 = false → nodeOk n = true → nodeOk (canDelete us n).1 = true) := by
  induction us generalizing n with
  | nil =>
    cases n with
    | mk cs e =>
      cases e with
      | false =>
        rw [canDelete_nil_false]
        exact ⟨hok, fun _ h => h⟩
      | true =>
        rw [canDelete_nil_true]
        refine ⟨hok, fun hb _ => ?_⟩
        simp only [decide_eq_true_eq] at hb
        simp only [nodeOk, TrieNode.isEndOfWord, TrieNode.children, Bool.false_or]
        simp only [List.isEmpty_iff, Bool.not_eq_true']
        cases hcs : cs.isEmpty with
        | false => rfl
        | true => exact absurd (List.length_eq_zero.mpr (List.isEmpty_iff.mp hcs)) (by
            intro h
            rw [h] at hb
            simp at hb)
  | cons u rest ih =>
    cases n with
    | mk cs e =>
      cases hg : mapGetU u cs with
      | none =>
        rw [canDelete_cons_none u rest cs e hg]
        exact ⟨hok, fun _ h => h⟩
      | some nx =>
        rw [canDelete_cons_some u rest cs e nx hg]
        obtain ⟨c, hcu, hgc⟩ := mapGetU_eq_some_exists hg
        have hdel : mapDeleteU u cs = mapDelete c cs := by
          rw [← hcu, mapDeleteU_toNat]
        have hset : mapSetAt u (canDelete rest nx).1 cs =
            mapSet c (canDelete rest nx).1 cs := by
          rw [← hcu, mapSetAt_toNat hgc]
        have hmem := childrenOk_mem hok (mapGet_eq_some_mem hgc)
        by_cases hr : (canDelete rest nx).2
        · simp only [hr, if_true, hdel]
          refine ⟨childrenOk_mapDelete hok, fun hb _ => ?_⟩
          simp only [Bool.and_eq_true, Bool.not_eq_true'] at hb
          simp only [nodeOk, TrieNode.isEndOfWord, TrieNode.children]
          cases e with
          | true => rfl
          | false =>
            simp only [Bool.false_or, List.isEmpty_iff, Bool.not_eq_true']
            cases hcs : (mapDelete c cs).isEmpty with
            | false => rfl
            | true =>
              exfalso
              have : (mapDelete c cs).length = 0 :=
                List.length_eq_zero.mpr (List.isEmpty_iff.mp hcs)
              simp [this] at hb
        · simp only [hr, if_false, Bool.false_eq_true, hset]
          have IH := ih nx hmem.2
          refine ⟨childrenOk_mapSet hok (IH.2 (by simp [hr]) hmem.1) IH.1, fun _ _ => ?_⟩
          simp [nodeOk, TrieNode.children, List.isEmpty_iff, mapSet_ne_nil]

/-! ### Insert idempotence -/

theorem insertAux_insertAux (s : List Char) (n : TrieNode) :
    insertAux s (insertAux s n) = insertAux s n := by
  induction s generalizing n with
  | nil =>
    cases n with
    | mk cs e => rfl
  | cons c rest ih =>
    cases n with
    | mk cs e =>
      cases hg : mapGet c cs with
      | some child =>
        rw [insertAux, hg]
        rw [insertAux, mapGet_mapSet_self]
        dsimp only
        rw [ih child, mapSet_mapSet_self]
      | none =>
        rw [insertAux, hg]
        rw [insertAux, mapGet_mapSet_self]
        dsimp only
        rw [ih createNode, mapSet_mapSet_self]

/-! ### Membership in the autocomplete DFS -/

theorem dfsList_nil (cur : List Char) : dfsList [] cur = [] := by
  simp [dfsList]

theorem dfsList_cons (c : Char) (n : TrieNode) (rest : List (Char × TrieNode))
    (cur : List Char) :
    dfsList ((c, n) :: rest) cur = dfs n (cur ++ [c]) ++ dfsList rest cur := by
  cases n with
  | mk cs e => simp [dfsList, dfs]

theorem key_ne_of_mapGet {c c0 : Char} {n : TrieNode} {tl : List (Char × TrieNode)}
    (hall : tl.all (fun x => x.1 != c0) = true) (hg : mapGet c tl = some n) :
    c ≠ c0 := by
  have hmem := mapGet_eq_some_mem hg
  rw [List.all_eq_true] at hall
  have := hall _ hmem
  simpa [bne_iff_ne] using this

theorem sizeList_cons_eq (c : Char) (cs : List (Char × TrieNode)) (e : Bool)
    (tl : List (Char × TrieNode)) :
    sizeList ((c, .mk cs e) :: tl) = 1 + sizeList cs + sizeList tl := by
  simp [sizeList]

theorem mem_dfsList_aux : ∀ (k : Nat) (cs : List (Char × TrieNode)),
    sizeList cs ≤ k → ∀ (cur s : List Char), wfChildren cs = true →
    (s ∈ dfsList cs cur ↔
      ∃ c n r, mapGet c cs = some n ∧ s = cur ++ c :: r ∧ searchFrom r n = true) := by
  intro k
  induction k with
  | zero =>
    intro cs hsz cur s _
    cases cs with
    | nil => simp [dfsList_nil, mapGet]
    | cons hd tl =>
      obtain ⟨c0, n0⟩ := hd
      cases n0 with
      | mk cs0 e0 =>
        rw [sizeList_cons_eq] at hsz
        omega
  | succ k ihk =>
    intro cs hsz cur s hwf
    cases cs with
    | nil => simp [dfsList_nil, mapGet]
    | cons hd tl =>
      obtain ⟨c0, n0⟩ := hd
      cases n0 with
      | mk cs0 e0 =>
        rw [sizeList_cons_eq] at hsz
        have hsz0 : sizeList cs0 ≤ k := by omega
        have hsztl : sizeList tl ≤ k := by omega
        rw [wfChildren_cons] at hwf
        simp only [Bool.and_eq_true] at hwf
        have hwf0 : wfChildren cs0 = true := hwf.1.2
        have hwftl : wfChildren tl = true := hwf.2
        have hall : tl.all (fun x => x.1 != c0) = true := hwf.1.1
        rw [dfsList_cons, dfs]
        constructor
        · intro hs
          rcases List.mem_append.mp hs with hs | hs
          · rcases List.mem_append.mp hs with hs | hs
            · have he0 : e0 = true := by
                cases e0 with
                | false => simp at hs
                | true => rfl
              have hscur : s = cur ++ [c0] := by
                cases e0 with
                | false => simp at hs
                | true => simpa using hs
              refine ⟨c0, .mk cs0 e0, [], by simp [mapGet], by simp [hscur], ?_⟩
              simp [searchFrom_nil, TrieNode.isEndOfWord, he0]
            · rcases (ihk cs0 hsz0 (cur ++ [c0]) s hwf0).mp hs with
                ⟨c', n', r', hget', hseq, hsearch'⟩
              refine ⟨c0, .mk cs0 e0, c' :: r', by simp [mapGet], ?_, ?_⟩
              · simp [hseq]
              · rw [searchFrom_cons]
                simp only [TrieNode.children, hget']
                exact hsearch'
          · rcases (ihk tl hsztl cur s hwftl).mp hs with
              ⟨c', n', r', hget', hseq, hsearch'⟩
            have hne : c' ≠ c0 := key_ne_of_mapGet hall hget'
            have hc0 : ¬(c0 = c') := fun h => hne h.symm
            refine ⟨c', n', r', ?_, hseq, hsearch'⟩
            simp [mapGet, hc0, hget']
        · rintro ⟨c, n, r, hget, hseq, hsearch⟩
          by_cases hc : c0 = c
          · subst hc
            have hget2 : TrieNode.mk cs0 e0 = n := by simpa [mapGet] using hget
            subst hget2
            cases r with
            | nil =>
              rw [searchFrom_nil] at hsearch
              have he0 : e0 = true := hsearch
              refine List.mem_append.mpr (Or.inl (List.mem_append.mpr (Or.inl ?_)))
              simp [he0, hseq]
            | cons c' r' =>
              rw [searchFrom_cons] at hsearch
              simp only [TrieNode.children] at hsearch
              cases hget' : mapGet c' cs0 with
              | none => rw [hget'] at hsearch; simp at hsearch
              | some n' =>
                rw [hget'] at hsearch
                refine List.mem_append.mpr (Or.inl (List.mem_append.mpr (Or.inr ?_)))
                refine (ihk cs0 hsz0 (cur ++ [c0]) s hwf0).mpr ⟨c', n', r', hget', ?_, hsearch⟩
                simp [hseq]
          · simp only [mapGet, if_neg hc] at hget
            refine List.mem_append.mpr (Or.inr ?_)
            exact (ihk tl hsztl cur s hwftl).mpr ⟨c, n, r, hget, hseq, hsearch⟩

theorem mem_dfsList {cs : List (Char × TrieNode)} {cur s : List Char}
    (hwf : wfChildren cs = true) :
    s ∈ dfsList cs cur ↔
      ∃ c n r, mapGet c cs = some n ∧ s = cur ++ c :: r ∧ searchFrom r n = true :=
  mem_dfsList_aux (sizeList cs) cs le_rfl cur s hwf

/-- Membership in the DFS harvest: exactly the extensions of the seed whose
path ends at an end-of-word node. -/
theorem mem_dfs_iff (n : TrieNode) (cur s : List Char)
    (hwf : wfChildren n.children = true) :
    s ∈ dfs n cur ↔ ∃ p, s = cur ++ p ∧ searchFrom p n = true := by
  cases n with
  | mk cs e =>
    have hwf' : wfChildren cs = true := hwf
    rw [dfs]
    constructor
    · intro hs
      rcases List.mem_append.mp hs with hs | hs
      · have he : e = true := by
          cases e with
          | false => simp at hs
          | true => rfl
        have hscur : s = cur := by
          cases e with
          | false => simp at hs
          | true => simpa using hs
        exact ⟨[], by simp [hscur], by simp [searchFrom_nil, TrieNode.isEndOfWord, he]⟩
      · rcases (mem_dfsList hwf').mp hs with ⟨c, n', r, hget, hseq, hsearch⟩
        refine ⟨c :: r, hseq, ?_⟩
        rw [searchFrom_cons]
        simp only [TrieNode.children, hget]
        exact hsearch
    · rintro ⟨p, hseq, hsearch⟩
      cases p with
      | nil =>
        rw [searchFrom_nil] at hsearch
        simp only [TrieNode.isEndOfWord] at hsearch
        refine List.mem_append.mpr (Or.inl ?_)
        simp [hsearch, hseq]
      | cons c r =>
        rw [searchFrom_cons] at hsearch
        simp only [TrieNode.children] at hsearch
        cases hget : mapGet c cs with
        | none => rw [hget] at hsearch; simp at hsearch
        | some n' =>
          rw [hget] at hsearch
          exact List.mem_append.mpr (Or.inr
            ((mem_dfsList hwf').mpr ⟨c, n', r, hget, hseq, hsearch⟩))

/-! ### The DFS harvest has no duplicates -/

theorem dfsList_shape {cs : List (Char × TrieNode)} {cur s : List Char}
    (hwf : wfChildren cs = true) (hs : s ∈ dfsList cs cur) :
    ∃ c r, s = cur ++ c :: r := by
  rcases (mem_dfsList hwf).mp hs with ⟨c, n, r, _, hseq, _⟩
  exact ⟨c, r, hseq⟩

theorem nodup_dfsList_aux : ∀ (k : Nat) (cs : List (Char × TrieNode)),
    sizeList cs ≤ k → ∀ (cur : List Char), wfChildren cs = true →
    (dfsList cs cur).Nodup := by
  intro k
  induction k with
  | zero =>
    intro cs hsz cur _
    cases cs with
    | nil => simp [dfsList_nil]
    | cons hd tl =>
      obtain ⟨c0, n0⟩ := hd
      cases n0 with
      | mk cs0 e0 =>
        rw [sizeList_cons_eq] at hsz
        omega
  | succ k ihk =>
    intro cs hsz cur hwf
    cases cs with
    | nil => simp [dfsList_nil]
    | cons hd tl =>
      obtain ⟨c0, n0⟩ := hd
      cases n0 with
      | mk cs0 e0 =>
        rw [sizeList_cons_eq] at hsz
        have hsz0 : sizeList cs0 ≤ k := by omega
        have hsztl : sizeList tl ≤ k := by omega
        rw [wfChildren_cons] at hwf
        simp only [Bool.and_eq_true] at hwf
        have hwf0 : wfChildren cs0 = true := hwf.1.2
        have hwftl : wfChildren tl = true := hwf.2
        have hall : tl.all (fun x => x.1 != c0) = true := hwf.1.1
        rw [dfsList_cons, dfs]
        rw [List.nodup_append]
        refine ⟨?_, ihk tl hsztl cur hwftl, ?_⟩
        · rw [List.nodup_append]
          refine ⟨?_, ihk cs0 hsz0 (cur ++ [c0]) hwf0, ?_⟩
          · cases e0 <;> simp
          · intro a ha hb
            have ha' : a = cur ++ [c0] := by
              cases e0 with
              | false => simp at ha
              | true => simpa using ha
            rcases dfsList_shape hwf0 hb with ⟨c, r, hr⟩
            rw [ha'] at hr
            have := congrArg List.length hr
            simp at this
        · intro a ha hb
          have ha' : ∃ tail, a = cur ++ c0 :: tail := by
            rcases List.mem_append.mp ha with ha | ha
            · refine ⟨[], ?_⟩
              cases e0 with
              | false => simp at ha
              | true => simpa using ha
            · rcases dfsList_shape hwf0 ha with ⟨c, r, hr⟩
              exact ⟨c :: r, by simpa using hr⟩
          rcases (mem_dfsList hwftl).mp hb with ⟨c', n', r', hget', hseq', _⟩
          have hne : c' ≠ c0 := key_ne_of_mapGet hall hget'
          rcases ha' with ⟨tail, htail⟩
          rw [htail] at hseq'
          have : c0 :: tail = c' :: r' := by
            have h := hseq'
            exact List.append_cancel_left h
          exact hne (by injection this with h1 _; exact h1.symm)

theorem nodup_dfsList {cs : List (Char × TrieNode)} {cur : List Char}
    (hwf : wfChildren cs = true) : (dfsList cs cur).Nodup :=
  nodup_dfsList_aux (sizeList cs) cs le_rfl cur hwf

/-- The DFS harvest never lists the same word twice. -/
theorem nodup_dfs (n : TrieNode) (cur : List Char)
    (hwf : wfChildren n.children = true) : (dfs n cur).Nodup := by
  cases n with
  | mk cs e =>
    have hwf' : wfChildren cs = true := hwf
    rw [dfs, List.nodup_append]
    refine ⟨by cases e <;> simp, nodup_dfsList hwf', ?_⟩
    intro a ha hb
    have ha' : a = cur := by
      cases e with
      | false => simp at ha
      | true => simpa using ha
    rcases dfsList_shape hwf' hb with ⟨c, r, hr⟩
    rw [ha'] at hr
    have := congrArg List.length hr
    simp at this

/-! ### Counting end-of-word nodes -/

/-- Number of end-of-word nodes in a children list. -/
def flagsList : List (Char × TrieNode) → Nat
  | [] => 0
  | (_, .mk cs e) :: rest => (if e then 1 else 0) + flagsList cs + flagsList rest

/-- Number of end-of-word nodes in the subtree of a node. -/
def TrieNode.flags : TrieNode → Nat
  | .mk cs e => (if e then 1 else 0) + flagsList cs

theorem flagsList_nil : flagsList [] = 0 := by
  simp [flagsList]

theorem flagsList_cons (c : Char) (n : TrieNode) (rest : List (Char × TrieNode)) :
    flagsList ((c, n) :: rest) = n.flags + flagsList rest := by
  cases n with
  | mk cs e => simp [flagsList, TrieNode.flags]

theorem flags_mk (cs : List (Char × TrieNode)) (e : Bool) :
    (TrieNode.mk cs e).flags = (if e then 1 else 0) + flagsList cs := rfl

theorem flags_createNode : createNode.flags = 0 := by
  simp [createNode, flags_mk, flagsList_nil]

theorem flags_mk_true (cs : List (Char × TrieNode)) :
    (TrieNode.mk cs true).flags = 1 + flagsList cs := by
  simp [flags_mk]

theorem flags_mk_false (cs : List (Char × TrieNode)) :
    (TrieNode.mk cs false).flags = flagsList cs := by
  simp [flags_mk]

theorem flagsList_eq_sum (cs : List (Char × TrieNode)) :
    flagsList cs = ((cs.map (fun x => x.2)).map TrieNode.flags).sum := by
  induction cs with
  | nil => simp [flagsList_nil]
  | cons hd tl ih =>
    obtain ⟨c, n⟩ := hd
    rw [flagsList_cons]
    simp [ih]

theorem countWordsAux_eq_sum : ∀ (k : Nat) (q : List TrieNode),
    (q.map TrieNode.size).sum ≤ k → countWordsAux q = (q.map TrieNode.flags).sum := by
  intro k
  induction k with
  | zero =>
    intro q hsz
    cases q with
    | nil => simp [countWordsAux]
    | cons n rest =>
      cases n with
      | mk cs e =>
        exfalso
        simp only [List.map_cons, List.sum_cons, TrieNode.size] at hsz
        omega
  | succ k ihk =>
    intro q hsz
    cases q with
    | nil => simp [countWordsAux]
    | cons n rest =>
      cases n with
      | mk cs e =>
        rw [countWordsAux]
        have hmeas := countWords_measure cs e rest
        have hle : ((rest ++ cs.map (fun x => x.2)).map TrieNode.size).sum ≤ k := by
          simp only [List.map_cons, List.sum_cons] at hsz
          have := Nat.lt_of_lt_of_le hmeas hsz
          simp only [List.map_cons, List.sum_cons] at this
          omega
        simp only [TrieNode.children, TrieNode.isEndOfWord]
        rw [ihk _ hle]
        simp only [List.map_append, List.sum_append, List.map_cons, List.sum_cons]
        rw [← flagsList_eq_sum, flags_mk]
        omega

/-- `countWords` equals the number of end-of-word nodes of the tree. -/
theorem countWords_eq_flags (t : Trie) : t.countWords = t.root.flags := by
  have := countWordsAux_eq_sum (([t.root].map TrieNode.size).sum) [t.root] le_rfl
  simpa [Trie.countWords] using this

theorem length_dfsList_aux : ∀ (k : Nat) (cs : List (Char × TrieNode)),
    sizeList cs ≤ k → ∀ (cur : List Char),
    (dfsList cs cur).length = flagsList cs := by
  intro k
  induction k with
  | zero =>
    intro cs hsz cur
    cases cs with
    | nil => simp [dfsList_nil, flagsList_nil]
    | cons hd tl =>
      obtain ⟨c0, n0⟩ := hd
      cases n0 with
      | mk cs0 e0 =>
        rw [sizeList_cons_eq] at hsz
        omega
  | succ k ihk =>
    intro cs hsz cur
    cases cs with
    | nil => simp [dfsList_nil, flagsList_nil]
    | cons hd tl =>
      obtain ⟨c0, n0⟩ := hd
      cases n0 with
      | mk cs0 e0 =>
        rw [sizeList_cons_eq] at hsz
        rw [dfsList_cons, dfs, flagsList_cons, flags_mk]
        simp only [List.length_append]
        rw [ihk cs0 (by omega) (cur ++ [c0]), ihk tl (by omega) cur]
        cases e0 with
        | false => simp
        | true => simp

/-- The DFS harvest has exactly one entry per end-of-word node. -/
theorem length_dfs (n : TrieNode) (cur : List Char) :
    (dfs n cur).length = n.flags := by
  cases n with
  | mk cs e =>
    rw [dfs, flags_mk, List.length_append,
      length_dfsList_aux (sizeList cs) cs le_rfl cur]
    cases e <;> simp

/-! ### How insert and delete change the flag count -/

theorem flagsList_mapSet_some {c : Char} {n : TrieNode} {cs : List (Char × TrieNode)}
    (hg : mapGet c cs = some n) (v : TrieNode) :
    flagsList (mapSet c v cs) + n.flags = flagsList cs + v.flags := by
  induction cs with
  | nil => simp [mapGet] at hg
  | cons hd tl ih =>
    obtain ⟨c', n'⟩ := hd
    by_cases hc : c' = c
    · subst hc
      have hg2 : n' = n := by simpa [mapGet] using hg
      subst hg2
      have hset : mapSet c' v ((c', n') :: tl) = (c', v) :: tl := by
        simp [mapSet]
      rw [hset, flagsList_cons, flagsList_cons]
      omega
    · simp only [mapGet, if_neg hc] at hg
      have hset : mapSet c v ((c', n') :: tl) = (c', n') :: mapSet c v tl := by
        simp [mapSet, hc]
      rw [hset, flagsList_cons, flagsList_cons]
      have := ih hg
      omega

theorem flagsList_mapSet_none {c : Char} {cs : List (Char × TrieNode)}
    (hg : mapGet c cs = none) (v : TrieNode) :
    flagsList (mapSet c v cs) = flagsList cs + v.flags := by
  induction cs with
  | nil =>
    show flagsList [(c, v)] = flagsList [] + v.flags
    rw [flagsList_cons, flagsList_nil]
    omega
  | cons hd tl ih =>
    obtain ⟨c', n'⟩ := hd
    by_cases hc : c' = c
    · simp [mapGet, hc] at hg
    · simp only [mapGet, if_neg hc] at hg
      have hset : mapSet c v ((c', n') :: tl) = (c', n') :: mapSet c v tl := by
        simp [mapSet, hc]
      rw [hset, flagsList_cons, flagsList_cons, ih hg]
      omega

theorem flagsList_mapDelete_some {c : Char} {n : TrieNode} {cs : List (Char × TrieNode)}
    (hg : mapGet c cs = some n) :
    flagsList (mapDelete c cs) + n.flags = flagsList cs := by
  induction cs with
  | nil => simp [mapGet] at hg
  | cons hd tl ih =>
    obtain ⟨c', n'⟩ := hd
    by_cases hc : c' = c
    · subst hc
      have hg2 : n' = n := by simpa [mapGet] using hg
      subst hg2
      have hdel : mapDelete c' ((c', n') :: tl) = tl := by
        simp [mapDelete]
      rw [hdel, flagsList_cons]
      omega
    · simp only [mapGet, if_neg hc] at hg
      have hdel : mapDelete c ((c', n') :: tl) = (c', n') :: mapDelete c tl := by
        simp [mapDelete, hc]
      rw [hdel, flagsList_cons, flagsList_cons]
      have := ih hg
      omega

theorem flags_le_flagsList {c : Char} {n : TrieNode} {cs : List (Char × TrieNode)}
    (hg : mapGet c cs = some n) : n.flags ≤ flagsList cs := by
  have := flagsList_mapDelete_some hg
  omega

/-- A found code-unit path contributes at least one flag. -/
theorem one_le_flags_of_searchU {us : List Nat} {n : TrieNode}
    (h : searchU us n = true) : 1 ≤ n.flags := by
  induction us generalizing n with
  | nil =>
    cases n with
    | mk cs e =>
      rw [searchU_nil] at h
      have he : e = true := h
      subst he
      rw [flags_mk_true]
      omega
  | cons u rest ih =>
    cases n with
    | mk cs e =>
      rw [searchU_cons] at h
      simp only [TrieNode.children] at h
      cases hg : mapGetU u cs with
      | none => rw [hg] at h; simp at h
      | some nx =>
        rw [hg] at h
        obtain ⟨c, hcu, hgc⟩ := mapGetU_eq_some_exists hg
        have h1 := ih h
        have h2 := flags_le_flagsList hgc
        rw [flags_mk]
        omega

/-- Inserting a word adds one flag if the word was absent, none if present. -/
theorem flags_insertAux (s : List Char) (n : TrieNode) :
    (insertAux s n).flags = n.flags + (if searchFrom s n then 0 else 1) := by
  induction s generalizing n with
  | nil =>
    cases n with
    | mk cs e =>
      rw [insertAux]
      rw [searchFrom_nil]
      simp only [TrieNode.isEndOfWord]
      cases e with
      | false => simp [flags_mk_true, flags_mk_false]; omega
      | true => simp [flags_mk_true, flags_mk_false]
  | cons c rest ih =>
    cases n with
    | mk cs e =>
      cases hg : mapGet c cs with
      | some child =>
        rw [insertAux, hg]
        rw [flags_mk, flags_mk, searchFrom_cons]
        simp only [TrieNode.children, hg]
        have h1 := flagsList_mapSet_some hg (insertAux rest child)
        have h2 := ih child
        cases hs : searchFrom rest child <;> simp [hs] at h2 ⊢ <;> omega
      | none =>
        rw [insertAux, hg]
        rw [flags_mk, flags_mk, searchFrom_cons]
        simp only [TrieNode.children, hg]
        have h1 := flagsList_mapSet_none hg (insertAux rest createNode)
        have h2 := ih createNode
        rw [searchFrom_createNode] at h2
        simp only [flags_createNode] at h2
        simp only [if_neg (by simp : ¬(false = true))] at h2
        simp
        omega

/-- Deleting a word removes one flag if the word was present, none if
absent. -/
theorem flags_canDelete (us : List Nat) (n : TrieNode) :
    (canDelete us n).1.flags + (if searchU us n then 1 else 0) = n.flags := by
  induction us generalizing n with
  | nil =>
    cases n with
    | mk cs e =>
      cases e with
      | false =>
        rw [canDelete_nil_false, searchU_nil]
        simp [TrieNode.isEndOfWord]
      | true =>
        rw [canDelete_nil_true, searchU_nil]
        simp only [TrieNode.isEndOfWord, if_true, flags_mk_true, flags_mk_false]
        omega
  | cons u rest ih =>
    cases n with
    | mk cs e =>
      cases hg : mapGetU u cs with
      | none =>
        rw [canDelete_cons_none u rest cs e hg, searchU_cons]
        simp only [TrieNode.children, hg]
        simp
      | some nx =>
        rw [canDelete_cons_some u rest cs e nx hg, searchU_cons]
        simp only [TrieNode.children, hg]
        obtain ⟨c, hcu, hgc⟩ := mapGetU_eq_some_exists hg
        have hdel2 : mapDeleteU u cs = mapDelete c cs := by
          rw [← hcu, mapDeleteU_toNat]
        have hset2 : mapSetAt u (canDelete rest nx).1 cs =
            mapSet c (canDelete rest nx).1 cs := by
          rw [← hcu, mapSetAt_toNat hgc]
        have hIH := ih nx
        by_cases hr : (canDelete rest nx).2
        · simp only [hr, if_true, hdel2]
          have hprune := canDelete_true_prunes rest nx hr
          rw [hprune, flags_createNode] at hIH
          have hdel := flagsList_mapDelete_some hgc
          rw [flags_mk, flags_mk]
          cases hs : searchU rest nx <;> simp [hs] at hIH ⊢ <;> omega
        · simp only [hr, if_false, Bool.false_eq_true, hset2]
          have hset := flagsList_mapSet_some hgc (canDelete rest nx).1
          rw [flags_mk, flags_mk]
          cases hs : searchU rest nx <;> simp [hs] at hIH ⊢ <;> omega

/-! ### All edge labels are lowercase -/

/-- Every edge character, recursively, is its own lowercase form: insert
only creates edges for characters of a lowercased word. -/
def lcChildren : List (Char × TrieNode) → Bool
  | [] => true
  | (c, .mk cs _) :: rest => (c.toLower == c) && lcChildren cs && lcChildren rest

theorem lcChildren_nil : lcChildren [] = true := by
  simp [lcChildren]

theorem lcChildren_cons (c : Char) (n : TrieNode) (rest : List (Char × TrieNode)) :
    lcChildren ((c, n) :: rest) =
      ((c.toLower == c) && lcChildren n.children && lcChildren rest) := by
  cases n with
  | mk cs e => simp [lcChildren, TrieNode.children]

theorem lc_mem {cs : List (Char × TrieNode)} {x : Char × TrieNode}
    (hlc : lcChildren cs = true) (hx : x ∈ cs) :
    x.1.toLower = x.1 ∧ lcChildren x.2.children = true := by
  induction cs with
  | nil => simp at hx
  | cons hd tl ih =>
    obtain ⟨c, n⟩ := hd
    rw [lcChildren_cons] at hlc
    simp only [Bool.and_eq_true, beq_iff_eq] at hlc
    rcases List.mem_cons.mp hx with h | h
    · subst h; exact ⟨hlc.1.1, hlc.1.2⟩
    · exact ih hlc.2 h

theorem lcChildren_mapSet {c : Char} {v : TrieNode} {cs : List (Char × TrieNode)}
    (hlc : lcChildren cs = true) (hc : c.toLower = c)
    (hv : lcChildren v.children = true) :
    lcChildren (mapSet c v cs) = true := by
  induction cs with
  | nil =>
    show lcChildren [(c, v)] = true
    rw [lcChildren_cons]
    simp [hc, hv, lcChildren_nil]
  | cons hd tl ih =>
    obtain ⟨c', n⟩ := hd
    rw [lcChildren_cons] at hlc
    simp only [Bool.and_eq_true, beq_iff_eq] at hlc
    by_cases hcc : c' = c
    · subst hcc
      have hset : mapSet c' v ((c', n) :: tl) = (c', v) :: tl := by
        simp [mapSet]
      rw [hset, lcChildren_cons]
      simp [hc, hv, hlc.2]
    · have hset : mapSet c v ((c', n) :: tl) = (c', n) :: mapSet c v tl := by
        simp [mapSet, hcc]
      rw [hset, lcChildren_cons]
      simp [hlc.1.1, hlc.1.2, ih hlc.2]

theorem lcChildren_mapDelete {c : Char} {cs : List (Char × TrieNode)}
    (hlc : lcChildren cs = true) : lcChildren (mapDelete c cs) = true := by
  induction cs with
  | nil => exact hlc
  | cons hd tl ih =>
    obtain ⟨c', n⟩ := hd
    rw [lcChildren_cons] at hlc
    simp only [Bool.and_eq_true, beq_iff_eq] at hlc
    by_cases hcc : c' = c
    · have hdel : mapDelete c ((c', n) :: tl) = tl := by
        simp [mapDelete, hcc]
      rw [hdel]
      exact hlc.2
    · have hdel : mapDelete c ((c', n) :: tl) = (c', n) :: mapDelete c tl := by
        simp [mapDelete, hcc]
      rw [hdel, lcChildren_cons]
      simp [hlc.1.1, hlc.1.2, ih hlc.2]

/-- Inserting an already-lowercased word keeps every edge lowercase. -/
theorem lcChildren_insertAux (s : List Char) (n : TrieNode)
    (hs : ∀ c ∈ s, c.toLower = c) (hlc : lcChildren n.children = true) :
    lcChildren (insertAux s n).children = true := by
  induction s generalizing n with
  | nil =>
    cases n with
    | mk cs e => exact hlc
  | cons c rest ih =>
    cases n with
    | mk cs e =>
      have hc : c.toLower = c := hs c (List.mem_cons_self c rest)
      have hrest : ∀ c' ∈ rest, c'.toLower = c' :=
        fun c' h => hs c' (List.mem_cons_of_mem c h)
      cases hg : mapGet c cs with
      | some child =>
        rw [insertAux, hg]
        have hmem := lc_mem hlc (mapGet_eq_some_mem hg)
        exact lcChildren_mapSet hlc hc (ih child hrest hmem.2)
      | none =>
        rw [insertAux, hg]
        exact lcChildren_mapSet hlc hc (ih createNode hrest lcChildren_nil)

/-- `canDelete` keeps every edge lowercase. -/
theorem lcChildren_canDelete (us : List Nat) (n : TrieNode)
    (hlc : lcChildren n.children = true) :
    lcChildren (canDelete us n).1.children = true := by
  induction us generalizing n with
  | nil =>
    cases n with
    | mk cs e =>
      cases e with
      | false => rw [canDelete_nil_false]; exact hlc
      | true => rw [canDelete_nil_true]; exact hlc
  | cons u rest ih =>
    cases n with
    | mk cs e =>
      cases hg : mapGetU u cs with
      | none =>
        rw [canDelete_cons_none u rest cs e hg]
        exact hlc
      | some nx =>
        rw [canDelete_cons_some u rest cs e nx hg]
        obtain ⟨c, hcu, hgc⟩ := mapGetU_eq_some_exists hg
        have hdel : mapDeleteU u cs = mapDelete c cs := by
          rw [← hcu, mapDeleteU_toNat]
        have hset : mapSetAt u (canDelete rest nx).1 cs =
            mapSet c (canDelete rest nx).1 cs := by
          rw [← hcu, mapSetAt_toNat hgc]
        have hmem := lc_mem hlc (mapGet_eq_some_mem hgc)
        by_cases hr : (canDelete rest nx).2
        · simp only [hr, if_true, hdel]
          exact lcChildren_mapDelete hlc
        · simp only [hr, if_false, Bool.false_eq_true, hset]
          exact lcChildren_mapSet hlc hmem.1 (ih nx hmem.2)

/-- A found path in a lowercase-edged tree consists of lowercase
characters. -/
theorem lc_of_searchFrom {s : List Char} {n : TrieNode}
    (hlc : lcChildren n.children = true) (h : searchFrom s n = true) :
    ∀ c ∈ s, c.toLower = c := by
  induction s generalizing n with
  | nil => intro c hc; simp at hc
  | cons c0 rest ih =>
    rw [searchFrom_cons] at h
    cases hg : mapGet c0 n.children with
    | none => rw [hg] at h; simp at h
    | some nx =>
      rw [hg] at h
      have hmem := lc_mem hlc (mapGet_eq_some_mem hg)
      intro c hc
      rcases List.mem_cons.mp hc with hceq | hc
      · subst hceq; exact hmem.1
      · exact ih hmem.2 h c hc

/-- Traversal preserves the key-distinctness invariant. -/
theorem wf_traverseAux {s : List Char} {n m : TrieNode}
    (hwf : wfChildren n.children = true) (h : traverseAux s n = some m) :
    wfChildren m.children = true := by
  induction s generalizing n with
  | nil =>
    simp only [traverseAux, Option.some.injEq] at h
    subst h
    exact hwf
  | cons c rest ih =>
    rw [traverseAux] at h
    cases hg : mapGet c n.children with
    | none => rw [hg] at h; simp at h
    | some nx =>
      rw [hg] at h
      exact ih (wf_mapGet hwf hg) h

/-- Traversal preserves the lowercase-edges invariant. -/
theorem lc_traverseAux {s : List Char} {n m : TrieNode}
    (hlc : lcChildren n.children = true) (h : traverseAux s n = some m) :
    lcChildren m.children = true := by
  induction s generalizing n with
  | nil =>
    simp only [traverseAux, Option.some.injEq] at h
    subst h
    exact hlc
  | cons c rest ih =>
    rw [traverseAux] at h
    cases hg : mapGet c n.children with
    | none => rw [hg] at h; simp at h
    | some nx =>
      rw [hg] at h
      exact ih (lc_mem hlc (mapGet_eq_some_mem hg)).2 h

/-! ### Trie-level invariants -/

/-- Key-distinctness invariant at the trie level. -/
def Trie.WF (t : Trie) : Prop := wfChildren t.root.children = true

/-- The spec's garbage-free invariant: no non-root node of the live tree
has an empty children map together with a cleared end-of-word flag. -/
def Trie.NoGarbage (t : Trie) : Prop := childrenOk t.root.children = true

/-- All edge labels in the live tree are lowercase characters. -/
def Trie.Lowercase (t : Trie) : Prop := lcChildren t.root.children = true

theorem wf_new : Trie.new.WF := wfChildren_nil

theorem wf_insert (t : Trie) (w : List Char) (h : t.WF) : (t.insert w).WF :=
  wfChildren_insertAux (toLowerCase w) t.root h

theorem wf_delete (t : Trie) (w : List Char) (h : t.WF) : (t.delete w).1.WF :=
  wfChildren_canDelete (utf16Units (toLowerCase w)) t.root h

theorem noGarbage_new : Trie.new.NoGarbage := childrenOk_nil

theorem noGarbage_insert (t : Trie) (w : List Char) (h : t.NoGarbage) :
    (t.insert w).NoGarbage :=
  childrenOk_insertAux (toLowerCase w) t.root h

theorem noGarbage_delete (t : Trie) (w : List Char) (h : t.NoGarbage) :
    (t.delete w).1.NoGarbage :=
  (childrenOk_canDelete (utf16Units (toLowerCase w)) t.root h).1

theorem toLowerCase_chars (w : List Char) : ∀ c ∈ toLowerCase w, c.toLower = c := by
  intro c hc
  rcases List.mem_map.mp hc with ⟨c', _, rfl⟩
  exact char_toLower_toLower c'

theorem lowercase_new : Trie.new.Lowercase := lcChildren_nil

theorem lowercase_insert (t : Trie) (w : List Char) (h : t.Lowercase) :
    (t.insert w).Lowercase :=
  lcChildren_insertAux (toLowerCase w) t.root (toLowerCase_chars w) h

theorem lowercase_delete (t : Trie) (w : List Char) (h : t.Lowercase) :
    (t.delete w).1.Lowercase :=
  lcChildren_canDelete (utf16Units (toLowerCase w)) t.root h

/-! ### Trie-level search lemmas -/

theorem search_insert_self (t : Trie) (w : List Char) :
    (t.insert w).search w = true := by
  rw [search_eq_searchFrom]
  exact searchFrom_insertAux_self (toLowerCase w) t.root

theorem search_insert_other (t : Trie) (w v : List Char)
    (hne : toLowerCase v ≠ toLowerCase w) : (t.insert w).search v = t.search v := by
  rw [search_eq_searchFrom, search_eq_searchFrom]
  exact searchFrom_insertAux_other (toLowerCase w) (toLowerCase v) hne t.root

theorem search_insert_mono (t : Trie) (w v : List Char)
    (h : t.search v = true) : (t.insert w).search v = true := by
  by_cases hne : toLowerCase v = toLowerCase w
  · rw [search_eq_searchFrom, Trie.insert, hne]
    exact searchFrom_insertAux_self (toLowerCase w) t.root
  · rw [search_insert_other t w v hne]
    exact h

/-- Deleting a word whose normalized form is all-BMP removes it.  (For a
word with a supplementary-plane character the code-unit walk of `delete`
misses on a surrogate half and removes nothing; see
`claim_C2_counterexample`.) -/
theorem search_delete_self (t : Trie) (w : List Char) (hwf : t.WF)
    (hbmp : allBMP (toLowerCase w) = true) :
    (t.delete w).1.search w = false := by
  rw [search_eq_searchFrom]
  show searchFrom (toLowerCase w) (canDelete (utf16Units (toLowerCase w)) t.root).1 = false
  rw [allBMP_utf16 hbmp, ← searchU_map_toNat]
  exact searchU_canDelete_self ((toLowerCase w).map Char.toNat) t.root hwf

theorem search_delete_other (t : Trie) (w v : List Char) (hwf : t.WF)
    (hne : toLowerCase v ≠ toLowerCase w) : (t.delete w).1.search v = t.search v := by
  rw [search_eq_searchFrom, search_eq_searchFrom]
  show searchFrom (toLowerCase v) (canDelete (utf16Units (toLowerCase w)) t.root).1 =
    searchFrom (toLowerCase v) t.root
  rw [← searchU_map_toNat, ← searchU_map_toNat]
  exact searchU_canDelete_other (utf16Units (toLowerCase w))
    ((toLowerCase v).map Char.toNat) t.root hwf (map_toNat_ne_utf16Units hne)

theorem searchFrom_append (a b : List Char) (n : TrieNode) :
    searchFrom (a ++ b) n =
      match traverseAux a n with
      | some m => searchFrom b m
      | none => false := by
  simp only [searchFrom, traverseAux_append]
  cases traverseAux a n <;> rfl

/-! ### Trie-level autocomplete characterization -/

/-- What `autocomplete` returns, as a set: exactly the lowercase words that
extend the normalized prefix and are found by `search`. -/
theorem mem_autocomplete (t : Trie) (p s : List Char) (hwf : t.WF)
    (hlc : t.Lowercase) :
    s ∈ t.autocomplete p ↔
      (toLowerCase s = s ∧ (∃ r, toLowerCase p ++ r = s) ∧ t.search s = true) := by
  cases htr : t.traverse p with
  | none =>
    simp only [Trie.autocomplete, htr]
    simp only [List.not_mem_nil, false_iff]
    rintro ⟨hls, ⟨r, hr⟩, hsearch⟩
    rw [search_eq_searchFrom, hls, ← hr, searchFrom_append] at hsearch
    rw [Trie.traverse] at htr
    rw [htr] at hsearch
    simp at hsearch
  | some start =>
    have hwfs : wfChildren start.children = true := wf_traverseAux hwf htr
    have hlcs : lcChildren start.children = true := lc_traverseAux hlc htr
    simp only [Trie.autocomplete, htr]
    rw [mem_dfs_iff start (toLowerCase p) s hwfs]
    constructor
    · rintro ⟨q, rfl, hq⟩
      have hqlc : ∀ c ∈ q, c.toLower = c := lc_of_searchFrom hlcs hq
      have hlower : toLowerCase (toLowerCase p ++ q) = toLowerCase p ++ q := by
        rw [toLowerCase_append, toLowerCase_toLowerCase, toLowerCase_self_of_all q hqlc]
      refine ⟨hlower, ⟨q, rfl⟩, ?_⟩
      rw [search_eq_searchFrom, hlower, searchFrom_append]
      rw [Trie.traverse] at htr
      rw [htr]
      exact hq
    · rintro ⟨hls, ⟨r, hr⟩, hsearch⟩
      refine ⟨r, hr.symm, ?_⟩
      rw [search_eq_searchFrom, hls, ← hr, searchFrom_append] at hsearch
      rw [Trie.traverse] at htr
      rw [htr] at hsearch
      exact hsearch

/-- A failed prefix traversal yields the empty list. -/
theorem autocomplete_of_traverse_none (t : Trie) (p : List Char)
    (h : t.traverse p = none) : t.autocomplete p = [] := by
  simp [Trie.autocomplete, h]

/-- Deleting one word does not change membership of any other lowercase
word in any autocomplete result. -/
theorem mem_autocomplete_delete (t : Trie) (w p s : List Char) (hwf : t.WF)
    (hlc : t.Lowercase) (hls : toLowerCase s = s) (hne : s ≠ toLowerCase w) :
    (s ∈ ((t.delete w).1.autocomplete p) ↔ s ∈ t.autocomplete p) := by
  rw [mem_autocomplete t p s hwf hlc,
    mem_autocomplete (t.delete w).1 p s (wf_delete t w hwf) (lowercase_delete t w hlc)]
  have hne' : toLowerCase s ≠ toLowerCase w := by rw [hls]; exact hne
  rw [search_delete_other t w s hwf hne']

/-! ### Refinement: the trie against a set of normalized words -/

/-- An operation of the mutable interface. -/
inductive TrieOp : Type where
  | ins (w : List Char)
  | del (w : List Char)

/-- Run one operation on the trie (the result of `delete` is the mutated
trie; its boolean is dropped). -/
def applyOp (t : Trie) : TrieOp → Trie
  | .ins w => t.insert w
  | .del w => (t.delete w).1

/-- Run a sequence of operations on a fresh trie. -/
def runOps (ops : List TrieOp) : Trie := ops.foldl applyOp Trie.new

/-- The reference model: a finite set of normalized words.  An insert adds
the normalized word; a delete removes it exactly when the program's
code-unit-indexed `delete` can address it, i.e. when the normalized word
is all-BMP (for a supplementary-plane word the program removes
nothing). -/
def applySet (M : Finset (List Char)) : TrieOp → Finset (List Char)
  | .ins w => insert (toLowerCase w) M
  | .del w => if allBMP (toLowerCase w) = true then M.erase (toLowerCase w) else M

/-- Run a sequence of operations on the reference model. -/
def runSet (ops : List TrieOp) : Finset (List Char) := ops.foldl applySet ∅

theorem applyOp_invariant (t : Trie) (M : Finset (List Char)) (op : TrieOp)
    (hwf : t.WF)
    (hmem : ∀ s, searchFrom s t.root = true ↔ s ∈ M)
    (hcard : t.root.flags = M.card) :
    (applyOp t op).WF ∧
      (∀ s, searchFrom s (applyOp t op).root = true ↔ s ∈ applySet M op) ∧
      (applyOp t op).root.flags = (applySet M op).card := by
  cases op with
  | ins w =>
    refine ⟨wf_insert t w hwf, ?_, ?_⟩
    · intro s
      by_cases hs : s = toLowerCase w
      · subst hs
        simp only [applyOp, applySet, Trie.insert]
        rw [searchFrom_insertAux_self]
        simp
      · simp only [applyOp, applySet, Trie.insert]
        rw [searchFrom_insertAux_other (toLowerCase w) s hs]
        rw [hmem s]
        simp [Finset.mem_insert, hs]
    · simp only [applyOp, applySet, Trie.insert]
      rw [flags_insertAux]
      by_cases hw : searchFrom (toLowerCase w) t.root = true
      · have hmemw : toLowerCase w ∈ M := (hmem _).mp hw
        rw [hw]
        simp [Finset.insert_eq_self.mpr hmemw, hcard]
      · have hmemw : toLowerCase w ∉ M := fun h => hw ((hmem _).mpr h)
        have hw' : searchFrom (toLowerCase w) t.root = false := by
          simpa using hw
        rw [hw']
        rw [Finset.card_insert_of_not_mem hmemw, hcard]
        simp
  | del w =>
    by_cases hbmp : allBMP (toLowerCase w) = true
    · have hunits : utf16Units (toLowerCase w) = (toLowerCase w).map Char.toNat :=
        allBMP_utf16 hbmp
      refine ⟨wf_delete t w hwf, ?_, ?_⟩
      · intro s
        simp only [applyOp, applySet, Trie.delete, hbmp, if_true]
        show searchFrom s (canDelete (utf16Units (toLowerCase w)) t.root).1 = true ↔ _
        rw [hunits, ← searchU_map_toNat]
        by_cases hs : s = toLowerCase w
        · subst hs
          rw [searchU_canDelete_self ((toLowerCase w).map Char.toNat) t.root hwf]
          simp
        · rw [searchU_canDelete_other _ _ _ hwf
            (fun h => hs (List.map_injective_iff.mpr char_toNat_inj h)),
            searchU_map_toNat, hmem s]
          simp [Finset.mem_erase, hs]
      · simp only [applyOp, applySet, Trie.delete, hbmp, if_true]
        show (canDelete (utf16Units (toLowerCase w)) t.root).1.flags = _
        rw [hunits]
        have hdel := flags_canDelete ((toLowerCase w).map Char.toNat) t.root
        rw [searchU_map_toNat] at hdel
        by_cases hw : searchFrom (toLowerCase w) t.root = true
        · have hmemw : toLowerCase w ∈ M := (hmem _).mp hw
          rw [hw] at hdel
          simp only [if_true] at hdel
          rw [Finset.card_erase_of_mem hmemw]
          omega
        · have hmemw : toLowerCase w ∉ M := fun h => hw ((hmem _).mpr h)
          have hw' : searchFrom (toLowerCase w) t.root = false := by
            simpa using hw
          rw [hw'] at hdel
          simp only [Bool.false_eq_true, if_false] at hdel
          rw [Finset.erase_eq_of_not_mem hmemw]
          omega
    · have hnoop : canDelete (utf16Units (toLowerCase w)) t.root = (t.root, false) := by
        obtain ⟨c, hc, hastral⟩ := exists_astral_of_not_allBMP hbmp
        obtain ⟨u, hu, h1, h2⟩ := surrogate_mem_utf16Units hc hastral
        exact canDelete_noop _ _ ⟨u, hu, h1, h2⟩
      have happ : applyOp t (.del w) = t := by
        show Trie.mk (canDelete (utf16Units (toLowerCase w)) t.root).1 = t
        rw [hnoop]
      rw [happ]
      simp only [applySet, hbmp, if_false]
      exact ⟨hwf, hmem, hcard⟩

theorem runOps_invariant (ops : List TrieOp) :
    (runOps ops).WF ∧
      (∀ s, searchFrom s (runOps ops).root = true ↔ s ∈ runSet ops) ∧
      (runOps ops).root.flags = (runSet ops).card := by
  suffices h : ∀ (t : Trie) (M : Finset (List Char)),
      t.WF → (∀ s, searchFrom s t.root = true ↔ s ∈ M) → t.root.flags = M.card →
      (ops.foldl applyOp t).WF ∧
        (∀ s, searchFrom s (ops.foldl applyOp t).root = true ↔ s ∈ ops.foldl applySet M) ∧
        (ops.foldl applyOp t).root.flags = (ops.foldl applySet M).card by
    refine h Trie.new ∅ wf_new ?_ ?_
    · intro s
      simp only [Finset.not_mem_empty, iff_false]
      intro hs
      rw [show Trie.new.root = createNode from rfl, searchFrom_createNode] at hs
      exact absurd hs (by simp)
    · rw [show Trie.new.root = createNode from rfl, flags_createNode]
      simp
  induction ops with
  | nil => intro t M hwf hmem hcard; exact ⟨hwf, hmem, hcard⟩
  | cons op rest ih =>
    intro t M hwf hmem hcard
    have hstep := applyOp_invariant t M op hwf hmem hcard
    exact ih (applyOp t op) (applySet M op) hstep.1 hstep.2.1 hstep.2.2

/-! ### The claims -/

/-- Claim C1: the spec says `delete(w)` returns true iff `w` (normalized)
was present and is now removed.  The code instead propagates the
"prunable" signal of the recursion: with "band" and "bandwidth" stored,
`delete("band")` finds and removes the word (search turns false) yet
returns `false`, contradicting the claim and the function's own
documentation.  This theorem evaluates the code at that failing input. -/
theorem claim_C1_delete_return_bug :
    (((Trie.new.insert ['b','a','n','d']).insert
        ['b','a','n','d','w','i','d','t','h']).search ['b','a','n','d'] = true) ∧
    ((((Trie.new.insert ['b','a','n','d']).insert
        ['b','a','n','d','w','i','d','t','h']).delete ['b','a','n','d']).2 = false) ∧
    ((((Trie.new.insert ['b','a','n','d']).insert
        ['b','a','n','d','w','i','d','t','h']).delete ['b','a','n','d']).1.search
        ['b','a','n','d'] = false) := by
  refine ⟨by decide, by decide, by decide⟩

/-- Claim C2, counterexample to the claim as stated: for the
supplementary-plane word "😀" (U+1F600), `insert` stores one edge keyed by
the code point, but `delete` walks the word by UTF-16 code units and its
first unit, the lone surrogate half 0xD83D, matches no edge; so after
`insert w; delete w` the word is still found and nothing was removed. -/
theorem claim_C2_counterexample :
    (((Trie.new.insert [Char.ofNat 128512]).delete [Char.ofNat 128512]).1.search
        [Char.ofNat 128512] = true) ∧
    (((Trie.new.insert [Char.ofNat 128512]).delete [Char.ofNat 128512]).2 = false) ∧
    (((Trie.new.insert [Char.ofNat 128512]).delete [Char.ofNat 128512]).1 =
        Trie.new.insert [Char.ofNat 128512]) := by
  refine ⟨by decide, by decide, ?_⟩
  have hnoop := canDelete_noop (utf16Units (toLowerCase [Char.ofNat 128512]))
    (Trie.new.insert [Char.ofNat 128512]).root ⟨55357, by decide, by decide, by decide⟩
  show Trie.mk (canDelete (utf16Units (toLowerCase [Char.ofNat 128512]))
    (Trie.new.insert [Char.ofNat 128512]).root).1 = Trie.new.insert [Char.ofNat 128512]
  rw [hnoop]

/-- Claim C2 (amended): the guarantee `insert w; delete w ⇒ search w`
false holds for words whose normalized form is all-BMP (one UTF-16 code
unit per character) — for supplementary-plane words the source's
code-unit-indexed delete removes nothing; the rest of the claim holds for
all words: deleting `w` changes neither `search v` for any word whose
normalization differs from `w`'s nor membership of any other lowercase
word in any autocomplete result; concretely, after inserting "band" and
"bandwidth" and deleting "band", "bandwidth" is still found and
`autocomplete "band"` yields exactly ["bandwidth"]. -/
theorem claim_C2_delete_correctness (t : Trie) (w v p s : List Char)
    (hwf : t.WF) (hlc : t.Lowercase) :
    (allBMP (toLowerCase w) = true → ((t.insert w).delete w).1.search w = false) ∧
    (toLowerCase v ≠ toLowerCase w → (t.delete w).1.search v = t.search v) ∧
    (toLowerCase s = s → s ≠ toLowerCase w →
      (s ∈ (t.delete w).1.autocomplete p ↔ s ∈ t.autocomplete p)) ∧
    ((((Trie.new.insert ['b','a','n','d']).insert
        ['b','a','n','d','w','i','d','t','h']).delete ['b','a','n','d']).1.search
        ['b','a','n','d','w','i','d','t','h'] = true) ∧
    ((((Trie.new.insert ['b','a','n','d']).insert
        ['b','a','n','d','w','i','d','t','h']).delete ['b','a','n','d']).1.autocomplete
        ['b','a','n','d'] = [['b','a','n','d','w','i','d','t','h']]) := by
  refine ⟨fun hbmp => search_delete_self (t.insert w) w (wf_insert t w hwf) hbmp,
    fun h => search_delete_other t w v hwf h,
    fun h1 h2 => mem_autocomplete_delete t w p s hwf hlc h1 h2,
    by decide, ?_⟩
  have hb : Char.toLower 'b' = 'b' := by decide
  have ha : Char.toLower 'a' = 'a' := by decide
  have hn : Char.toLower 'n' = 'n' := by decide
  have hd : Char.toLower 'd' = 'd' := by decide
  have hw' : Char.toLower 'w' = 'w' := by decide
  have hi : Char.toLower 'i' = 'i' := by decide
  have ht : Char.toLower 't' = 't' := by decide
  have hh : Char.toLower 'h' = 'h' := by decide
  simp [Trie.autocomplete, Trie.traverse, Trie.delete, Trie.insert, Trie.new,
    toLowerCase, hb, ha, hn, hd, hw', hi, ht, hh,
    createNode, insertAux, mapGet, mapSet, traverseAux, TrieNode.children,
    canDelete, mapDelete, dfs, dfsList]

/-- Witness for claim C2 at a concrete trie, discharging the invariant
hypotheses. -/
theorem claim_C2_witness :
    ((Trie.new.insert ['b']).delete ['b']).1.search ['b'] = false :=
  (claim_C2_delete_correctness Trie.new ['b'] [] [] [] wf_new lowercase_new).1
    (by decide)

/-- Claim C3: the garbage-free invariant (no non-root live node with an
empty children map and a cleared flag) holds of a fresh trie and is
preserved by insert and delete; and the root node is never unlinked: even
when the top-level recursion reports "prunable" the trie keeps its root,
which is then simply the empty node. -/
theorem claim_C3_garbage_free (t : Trie) (w : List Char) :
    Trie.new.NoGarbage ∧
    (t.NoGarbage → (t.insert w).NoGarbage) ∧
    (t.NoGarbage → (t.delete w).1.NoGarbage) ∧
    ((t.delete w).2 = true → (t.delete w).1.root = createNode) :=
  ⟨noGarbage_new, noGarbage_insert t w, noGarbage_delete t w,
    fun h => canDelete_true_prunes (utf16Units (toLowerCase w)) t.root h⟩

/-- Witness for claim C3 at a concrete trie. -/
theorem claim_C3_witness : (Trie.new.insert ['a']).NoGarbage :=
  (claim_C3_garbage_free Trie.new ['a']).2.1 noGarbage_new

/-- Claim C4: after any sequence of inserts and deletes starting from a
fresh trie, `countWords` equals the cardinality of the reference set of
normalized words (inserted words added, deleted words removed), and that
set is exactly the set of stored words as observed by `search`. -/
theorem claim_C4_countWords (ops : List TrieOp) :
    (runOps ops).countWords = (runSet ops).card ∧
    (∀ s, (runOps ops).search s = true ↔ toLowerCase s ∈ runSet ops) := by
  obtain ⟨hwf, hmem, hcard⟩ := runOps_invariant ops
  refine ⟨by rw [countWords_eq_flags]; exact hcard, ?_⟩
  intro s
  rw [search_eq_searchFrom]
  exact hmem (toLowerCase s)

/-- Claim C5: `autocomplete p` returns the empty sequence when the prefix
traversal fails, and otherwise returns, as a set, exactly the lowercase
words extending the normalized prefix that `search` finds; in particular
every returned string is lowercase and starts with the normalized
prefix. -/
theorem claim_C5_autocomplete (t : Trie) (p s : List Char)
    (hwf : t.WF) (hlc : t.Lowercase) :
    (t.traverse p = none → t.autocomplete p = []) ∧
    (s ∈ t.autocomplete p ↔
      (toLowerCase s = s ∧ (∃ r, toLowerCase p ++ r = s) ∧ t.search s = true)) :=
  ⟨autocomplete_of_traverse_none t p, mem_autocomplete t p s hwf hlc⟩

/-- Witness for claim C5: inserting with a capital letter, the word comes
back lowercase from an uppercase prefix query. -/
theorem claim_C5_witness :
    ['a','b'] ∈ (Trie.new.insert ['A','b']).autocomplete ['A'] :=
  (claim_C5_autocomplete (Trie.new.insert ['A','b']) ['A'] ['a','b']
      (wf_insert Trie.new ['A','b'] wf_new)
      (lowercase_insert Trie.new ['A','b'] lowercase_new)).2.mpr
    ⟨by decide, ⟨['b'], by decide⟩, by decide⟩

/-- Claim C6: after `insert w`, `search w` is true, and stays true after
inserting any other word. -/
theorem claim_C6_insert_search (t : Trie) (w w2 : List Char) :
    ((t.insert w).search w = true) ∧
    (w2 ≠ w → ((t.insert w).insert w2).search w = true) :=
  ⟨search_insert_self t w,
    fun _ => search_insert_mono (t.insert w) w2 w (search_insert_self t w)⟩

/-- Witness for claim C6 at concrete words. -/
theorem claim_C6_witness : ((Trie.new.insert ['a']).insert ['b']).search ['a'] = true :=
  (claim_C6_insert_search Trie.new ['a'] ['b']).2 (by decide)

/-- Claim C7: `insert` is idempotent: inserting the same word twice yields
the very same tree, hence the same `search`, `autocomplete` and
`countWords` results as inserting it once. -/
theorem claim_C7_insert_idempotent (t : Trie) (w : List Char) :
    ((t.insert w).insert w = t.insert w) ∧
    (∀ v, ((t.insert w).insert w).search v = (t.insert w).search v) ∧
    (∀ p, ((t.insert w).insert w).autocomplete p = (t.insert w).autocomplete p) ∧
    (((t.insert w).insert w).countWords = (t.insert w).countWords) := by
  have h : (t.insert w).insert w = t.insert w := by
    simp only [Trie.insert]
    exact congrArg Trie.mk (insertAux_insertAux (toLowerCase w) t.root)
  exact ⟨h, fun v => by rw [h], fun p => by rw [h], by rw [h]⟩

/-- Claim C8: every operation behaves identically on a word and on its
lowercased form, and concretely `insert "Apple"` makes both
`search "apple"` and `search "APPLE"` true. -/
theorem claim_C8_case_insensitive (t : Trie) (w : List Char) :
    (t.insert w = t.insert (toLowerCase w)) ∧
    (t.search w = t.search (toLowerCase w)) ∧
    (t.startsWith w = t.startsWith (toLowerCase w)) ∧
    (t.delete w = t.delete (toLowerCase w)) ∧
    (t.autocomplete w = t.autocomplete (toLowerCase w)) ∧
    ((Trie.new.insert ['A','p','p','l','e']).search ['a','p','p','l','e'] = true) ∧
    ((Trie.new.insert ['A','p','p','l','e']).search ['A','P','P','L','E'] = true) := by
  refine ⟨?_, ?_, ?_, ?_, ?_, by decide, by decide⟩
  · rw [Trie.insert, Trie.insert, toLowerCase_toLowerCase]
  · rw [Trie.search, Trie.search, Trie.traverse, Trie.traverse, toLowerCase_toLowerCase]
  · rw [Trie.startsWith, Trie.startsWith, Trie.traverse, Trie.traverse,
      toLowerCase_toLowerCase]
  · rw [Trie.delete, Trie.delete, toLowerCase_toLowerCase]
  · rw [Trie.autocomplete, Trie.autocomplete, Trie.traverse, Trie.traverse,
      toLowerCase_toLowerCase]

/-- Claim C10: `startsWith ""` is true in every trie, including a fresh
one, and `autocomplete ""` enumerates exactly the stored words. -/
theorem claim_C10_empty_query (t : Trie) (s : List Char)
    (hwf : t.WF) (hlc : t.Lowercase) :
    (t.startsWith [] = true) ∧
    (Trie.new.startsWith [] = true) ∧
    (s ∈ t.autocomplete [] ↔ (toLowerCase s = s ∧ t.search s = true)) := by
  have h1 : ∀ t' : Trie, t'.startsWith ([] : List Char) = true := by
    intro t'
    rw [Trie.startsWith, Trie.traverse]
    simp [toLowerCase, traverseAux]
  refine ⟨h1 t, h1 Trie.new, ?_⟩
  rw [mem_autocomplete t [] s hwf hlc]
  constructor
  · rintro ⟨hls, _, hsearch⟩
    exact ⟨hls, hsearch⟩
  · rintro ⟨hls, hsearch⟩
    exact ⟨hls, ⟨s, by simp [toLowerCase]⟩, hsearch⟩

/-- Witness for claim C10 at a concrete trie. -/
theorem claim_C10_witness : ['a'] ∈ (Trie.new.insert ['a']).autocomplete [] :=
  (claim_C10_empty_query (Trie.new.insert ['a']) ['a']
      (wf_insert Trie.new ['a'] wf_new)
      (lowercase_insert Trie.new ['a'] lowercase_new)).2.2.mpr ⟨by decide, by decide⟩
